import Mathlib

/-!
Shallow embedding of the Data-Ingestion-API-System repository
(Express app: `src/controllers/ingestController.js`, `src/utils/priorityQueue.js`,
`src/services/ingestService.js`) and proofs about its claims.

Modelling conventions:
* UUIDs are modelled by natural numbers minted from a monotone counter
  (uuidv4 collisions are assumed impossible).
* JS timestamps (`Date.getTime()`, `Date.now()`) are naturals (milliseconds).
* The scalar heap key `priorityMap[p] + createdAt/1e14` is modelled in exact
  rational arithmetic; for the timestamp magnitudes the code can see this is
  order-equivalent to the IEEE double computed by the JS engine.
* The event loop is modelled by a labelled transition system: `submit` is the
  synchronous body of `handleIngestRequest` (which ends in a synchronous
  `processQueue` call), `wake` is a timer callback running `processQueue`, and
  `complete` is the resolution of an in-flight `processSingleBatch` promise
  followed by its `.then` continuation `processQueue`.
-/

set_option maxHeartbeats 1000000

namespace IngestApi

/-- Priority levels accepted by the API after the controller normalises case. -/
inductive Priority where
  | HIGH
  | MEDIUM
  | LOW
deriving DecidableEq, Repr

/-- Batch status strings used by the service, as an enumeration. -/
inductive BatchStatus where
  | yet_to_start
  | triggered
  | completed
  | failed
deriving DecidableEq, Repr

/-- Job objects enqueued by `processIngestionRequest`:
`{ ingestionId, batchId, priority, createdAt }`. -/
structure Job where
  ingestionId : Nat
  batchId : Nat
  priority : Priority
  createdAt : Nat
deriving DecidableEq, Repr

/-- The `priorityMap` of the PriorityQueue class: HIGH 1, MEDIUM 2, LOW 3. -/
def priorityMap : Priority → ℚ
  | .HIGH => 1
  | .MEDIUM => 2
  | .LOW => 3

/-- Method `_getJobPriorityValue`: priority rank plus the timestamp scaled by
1e14, modelled in exact rational arithmetic. -/
def getJobPriorityValue (j : Job) : ℚ :=
  priorityMap j.priority + (j.createdAt : ℚ) / 100000000000000

/-- Priority rank as a natural number (the numeric values of `priorityMap`). -/
def priorityRank : Priority → Nat
  | .HIGH => 1
  | .MEDIUM => 2
  | .LOW => 3

/-- Integer form of `_getJobPriorityValue`: the same value multiplied by 1e14.
This is exactly order-isomorphic to the rational (see `scaledKey_lt_iff`) and,
unlike rational arithmetic, computes inside the kernel. All heap comparisons
are performed through it. -/
def scaledKey (j : Job) : Nat :=
  priorityRank j.priority * 100000000000000 + j.createdAt

/-- Placeholder job used for out-of-range index reads of the heap array
(never observable on in-range indices). -/
def dummyJob : Job := ⟨0, 0, .HIGH, 0⟩

/-- Read of the JS array `this.heap[i]`. -/
def heapAt (l : List Job) (i : Nat) : Job := (l[i]?).getD dummyJob

/-- Key of the element at index `i`, `_getJobPriorityValue(this.heap[i])`,
in the order-isomorphic integer form. -/
def keyAt (l : List Job) (i : Nat) : Nat := scaledKey (heapAt l i)

/-- The destructuring swap `[heap[i], heap[j]] = [heap[j], heap[i]]`. -/
def heapSwap (l : List Job) (i j : Nat) : List Job :=
  (l.set i (heapAt l j)).set j (heapAt l i)

/-- Parent index in the implicit binary tree, `Math.floor((nodeIdx - 1) / 2)`. -/
def parentIdx (i : Nat) : Nat := (i - 1) / 2

/-- One bounded run of the `_siftUp` while loop. The loop index strictly
decreases, so `fuel` iterations suffice whenever `i < fuel`; the explicit
fuel keeps the recursion structural (kernel-computable). -/
def siftUpGo (fuel : Nat) (l : List Job) (i : Nat) : List Job :=
  match fuel with
  | 0 => l
  | fuel + 1 =>
    if i = 0 then l
    else
      if keyAt l i < keyAt l (parentIdx i) then
        siftUpGo fuel (heapSwap l i (parentIdx i)) (parentIdx i)
      else l

/-- Method `_siftUp` of the PriorityQueue (the JS loop starts at the given
index, here `heap.length - 1` for enqueue). -/
def siftUp (l : List Job) (i : Nat) : List Job := siftUpGo (i + 1) l i

/-- The `smallestChildIdx` selection inside `_siftDown`: the left child, or the
right child when it exists and has the strictly smaller key. -/
def smallestChild (l : List Job) (i : Nat) : Nat :=
  if 2 * i + 2 < l.length ∧ keyAt l (2 * i + 2) < keyAt l (2 * i + 1) then 2 * i + 2
  else 2 * i + 1

/-- One bounded run of the `_siftDown` while loop. The loop index strictly
increases and stays below the array length, so `l.length` iterations suffice;
the explicit fuel keeps the recursion structural (kernel-computable). -/
def siftDownGo (fuel : Nat) (l : List Job) (i : Nat) : List Job :=
  match fuel with
  | 0 => l
  | fuel + 1 =>
    if 2 * i + 1 < l.length then
      if keyAt l i ≤ keyAt l (smallestChild l i) then l
      else siftDownGo fuel (heapSwap l i (smallestChild l i)) (smallestChild l i)
    else l

/-- Method `_siftDown` of the PriorityQueue (the JS loop starts at index 0
after a dequeue). -/
def siftDown (l : List Job) (i : Nat) : List Job := siftDownGo l.length l i

/-- Method `enqueue`: push then sift up from the last index. -/
def enqueue (l : List Job) (j : Job) : List Job :=
  siftUp (l ++ [j]) ((l ++ [j]).length - 1)

/-- Method `dequeue`: return `heap[0]`, move the popped last element to the
root and sift down; returns `none` on the empty heap. -/
def dequeue (l : List Job) : Option Job × List Job :=
  match l with
  | [] => (none, [])
  | a :: rest =>
    let last := (a :: rest).getLast (by simp)
    let popped := (a :: rest).dropLast
    if popped.length > 0 then
      (some a, siftDown (popped.set 0 last) 0)
    else
      (some a, popped)

/-- Modelled from the spec: the composite ordering key comparison
(priorityRank, createdAt), ascending and lexicographic. This is the sentence
the code's scalar key is compared against. -/
def compositeLt (a b : Job) : Prop :=
  priorityRank a.priority < priorityRank b.priority ∨
    (priorityRank a.priority = priorityRank b.priority ∧ a.createdAt < b.createdAt)

instance (a b : Job) : Decidable (compositeLt a b) := by
  unfold compositeLt
  infer_instance

/-- One external operation on the PriorityQueue object. -/
inductive QOp where
  | enq : Job → QOp
  | deq : QOp
deriving DecidableEq, Repr

/-- Effect of one operation on the heap array (a dequeue keeps the remaining
array). -/
def applyOp (l : List Job) : QOp → List Job
  | .enq j => enqueue l j
  | .deq => (dequeue l).2

/-- The heap array after running a sequence of operations on a fresh
`new PriorityQueue()`. -/
def runOps (ops : List QOp) : List Job := ops.foldl applyOp []

/-- The timestamp bound below which the scaled timestamp stays below one unit
of priority rank (1e14 milliseconds). -/
def tsBound : Nat := 100000000000000

/-- HIGH-priority job whose timestamp 3e14 ms overflows the scaled-timestamp
fraction; used to refute the unrestricted composite-key claim. -/
def cexJobHigh : Job := ⟨1, 10, .HIGH, 300000000000000⟩

/-- LOW-priority job with timestamp 0; paired with `cexJobHigh`. -/
def cexJobLow : Job := ⟨2, 20, .LOW, 0⟩

/-- HIGH-priority job with a realistic timestamp, used as a witness input. -/
def wJobA : Job := ⟨3, 30, .HIGH, 100⟩

/-- MEDIUM-priority job with a realistic timestamp, used as a witness input. -/
def wJobB : Job := ⟨4, 40, .MEDIUM, 200⟩

/-- The `BATCH_SIZE` constant of ingestService (3 ids per batch). -/
def BATCH_SIZE : Nat := 3

/-- The `RATE_LIMIT_MS` constant of ingestService (one batch per 5000 ms). -/
def RATE_LIMIT_MS : Nat := 5000

/-- One bounded run of the batch-splitting for loop of
`processIngestionRequest`: `for (i = 0; i < ids.length; i += BATCH_SIZE)`
collecting `ids.slice(i, i + BATCH_SIZE)`. The index advances by at least one
per iteration, so `ids.length` iterations suffice from `i = 0`. -/
def batchChunksGo (fuel : Nat) (ids : List Int) (i : Nat) : List (List Int) :=
  match fuel with
  | 0 => []
  | fuel + 1 =>
    if i < ids.length then ((ids.drop i).take BATCH_SIZE) :: batchChunksGo fuel ids (i + BATCH_SIZE)
    else []

/-- The list of id-chunks produced by the splitting loop started at index 0. -/
def batchChunks (ids : List Int) : List (List Int) := batchChunksGo ids.length ids 0

/-- Batch objects as stored in the ingestion store:
`{ batch_id, ids, status }`. -/
structure BatchRec where
  batch_id : Nat
  ids : List Int
  status : BatchStatus
deriving DecidableEq, Repr

/-- Function `calculateOverallStatus` of ingestService: `yet_to_start` for an
empty or missing batch list, else `yet_to_start` when every batch is
`yet_to_start`, else `completed` when every batch is `completed`, else
`triggered`. -/
def calculateOverallStatus (batches : List BatchRec) : BatchStatus :=
  if batches.isEmpty then .yet_to_start
  else if ∀ b ∈ batches, b.status = BatchStatus.yet_to_start then .yet_to_start
  else if ∀ b ∈ batches, b.status = BatchStatus.completed then .completed
  else .triggered

/-- Ingestion request record as stored in `ingestionStore[ingestionId]`:
`{ status, batches, priority, createdAt, original_ids }`. -/
structure ReqRec where
  status : BatchStatus
  batches : List BatchRec
  priority : Priority
  createdAt : Nat
  original_ids : List Int
deriving DecidableEq, Repr

/-- Whole-system state: the controller store, the service module state
(`jobQueue`, `lastProcessingStartTime`), the pending `processSingleBatch`
promises, the uuid source (modelled as a counter), and a ghost trace of
`yet_to_start → triggered` transitions (time, ingestionId, batchId). -/
structure SysState where
  store : List (Nat × ReqRec)
  queue : List Job
  lastProcessingStartTime : Nat
  inflight : List (Nat × Nat)
  nextId : Nat
  admissions : List (Nat × Nat × Nat)
deriving DecidableEq, Repr

/-- Module-load state: empty store, empty queue, `lastProcessingStartTime = 0`. -/
def initState : SysState := ⟨[], [], 0, [], 0, []⟩

/-- Sets `batch.status = st` on the batch object with the given id (the JS
mutates the object found by `find`; ids are unique per request). -/
def setBatchStatus (r : ReqRec) (bid : Nat) (st : BatchStatus) : ReqRec :=
  { r with batches := r.batches.map fun b =>
      if b.batch_id = bid then { b with status := st } else b }

/-- Mutation of one batch status through the store reference. -/
def updateBatch (store : List (Nat × ReqRec)) (rid bid : Nat) (st : BatchStatus) :
    List (Nat × ReqRec) :=
  store.map fun p => if p.1 = rid then (p.1, setBatchStatus p.2 bid st) else p

/-- One invocation of `processQueue` at clock time `now`, bounded by the queue
length (every recursive call follows a dequeue, so the queue length is enough
fuel). A rate-limited return models scheduling the deferred retry timer (the
timer firing is a later `wake` step); an admission marks the batch
`triggered`, sets `lastProcessingStartTime = now`, records the pending
promise, and appends to the ghost admission trace (the asynchronous
continuation is a later `complete` step). -/
def processQueueGo (fuel : Nat) (now : Nat) (s : SysState) : SysState :=
  match fuel with
  | 0 => s
  | fuel + 1 =>
    if s.queue.isEmpty then s
    else if now - s.lastProcessingStartTime < RATE_LIMIT_MS then s
    else
      match dequeue s.queue with
      | (none, q) => { s with queue := q, lastProcessingStartTime := 0 }
      | (some job, q) =>
        let s1 := { s with queue := q }
        match (List.lookup job.ingestionId s.store).bind
            (fun r => r.batches.find? fun b => b.batch_id == job.batchId) with
        | some b =>
          if b.status = BatchStatus.yet_to_start then
            { s1 with
              store := updateBatch s1.store job.ingestionId job.batchId BatchStatus.triggered,
              lastProcessingStartTime := now,
              inflight := (job.ingestionId, job.batchId) :: s1.inflight,
              admissions := s1.admissions ++ [(now, job.ingestionId, job.batchId)] }
          else processQueueGo fuel now s1
        | none => processQueueGo fuel now s1

/-- Function `processQueue` of ingestService at clock time `now`. -/
def processQueue (now : Nat) (s : SysState) : SysState :=
  processQueueGo s.queue.length now s

/-- Function `simulateApiCall`: after the random delay the promise always
resolves with `{ id, data: "processed" }`; it has no rejection path. -/
def simulateApiCall (id : Int) (delay : Nat) : Except String (Int × String) :=
  Except.ok (id, "processed")

/-- Outcome of `processSingleBatch` for one batch: `completed` when every
simulated call resolves, `failed` if any of them threw. -/
def processSingleBatchOutcome (delays : Int → Nat) (b : BatchRec) : BatchStatus :=
  match b.ids.mapM (fun i => simulateApiCall i (delays i)) with
  | Except.ok _ => BatchStatus.completed
  | Except.error _ => BatchStatus.failed

/-- Resolution of an in-flight `processSingleBatch` promise: the batch object
gets the outcome status and the promise is retired (its `.then` continuation
re-invokes `processQueue`; that is part of the `complete` step). -/
def completeBatch (delays : Int → Nat) (rid bid : Nat) (s : SysState) : SysState :=
  match (List.lookup rid s.store).bind
      (fun r => r.batches.find? fun b => b.batch_id == bid) with
  | some b =>
    { s with
      store := updateBatch s.store rid bid (processSingleBatchOutcome delays b),
      inflight := s.inflight.erase (rid, bid) }
  | none => { s with inflight := s.inflight.erase (rid, bid) }

/-- Request body of `POST /ingest` as the controller reads it. -/
structure IngestBody where
  ids : Option (List Int)
  priority : Option String
deriving DecidableEq, Repr

/-- The accepted priority strings of the controller validation. -/
def validPriorityStrings : List String := ["HIGH", "MEDIUM", "LOW"]

/-- JS `String.prototype.toUpperCase`, modelled over the character list
(per-character uppercasing, as JS does on these ASCII strings). -/
def toUpperCase (s : String) : String := ⟨s.data.map Char.toUpper⟩

/-- The `priority.toUpperCase()` comparison against the accepted values,
returning the parsed enum. -/
def parsePriority (p : String) : Option Priority :=
  if toUpperCase p = "HIGH" then some Priority.HIGH
  else if toUpperCase p = "MEDIUM" then some Priority.MEDIUM
  else if toUpperCase p = "LOW" then some Priority.LOW
  else none

/-- Function `processIngestionRequest` of ingestService: split the ids into
batches (fresh id each), enqueue one job per batch, store the batch list and
initial overall status, then run `processQueue`. -/
def processIngestionRequest (rid : Nat) (ids : List Int) (pr : Priority)
    (createdAt : Nat) (now : Nat) (s : SysState) : SysState :=
  let chunks := batchChunks ids
  let batches : List BatchRec :=
    chunks.enum.map fun kc => ⟨s.nextId + kc.1, kc.2, BatchStatus.yet_to_start⟩
  let jobs : List Job := batches.map fun b => ⟨rid, b.batch_id, pr, createdAt⟩
  let s2 : SysState :=
    { s with
      store := s.store.map (fun p =>
        if p.1 = rid then
          (p.1, { p.2 with
                  batches := batches
                  status := calculateOverallStatus batches
                  priority := pr })
        else p),
      queue := jobs.foldl enqueue s.queue,
      nextId := s.nextId + chunks.length }
  processQueue now s2

/-- Controller `handleIngestRequest` at clock time `now`: validation, record
creation, then the synchronous `processIngestionRequest` (which ends in a
synchronous `processQueue` run) and finally the 202 response carrying the
fresh ingestion id. Validation failures return 400 before any state is
touched. A non-array `ids` value is outside this typed model. -/
def handleIngestRequest (now : Nat) (body : IngestBody) (s : SysState) :
    Except String Nat × SysState :=
  match body.ids with
  | none => (Except.error "Invalid input: ids array is required and cannot be empty.", s)
  | some ids =>
    if ids.isEmpty then
      (Except.error "Invalid input: ids array is required and cannot be empty.", s)
    else
      match body.priority with
      | none =>
        (Except.error "Invalid input: priority is required and must be HIGH, MEDIUM, or LOW.", s)
      | some p =>
        if p.isEmpty then
          (Except.error "Invalid input: priority is required and must be HIGH, MEDIUM, or LOW.", s)
        else
          match parsePriority p with
          | none =>
            (Except.error "Invalid input: priority is required and must be HIGH, MEDIUM, or LOW.", s)
          | some pr =>
            let rid := s.nextId
            let s2 : SysState :=
              { s with
                store := s.store ++ [(rid, ⟨BatchStatus.yet_to_start, [], pr, now, ids⟩)],
                nextId := s.nextId + 1 }
            (Except.ok rid, processIngestionRequest rid ids pr now now s2)

/-- One batch entry of the status response wire shape. -/
structure BatchView where
  batch_id : Nat
  ids : List Int
  status : BatchStatus
deriving DecidableEq, Repr

/-- The `GET /status/:ingestionId` response wire shape
`{ ingestion_id, status, batches }`. -/
structure StatusResponse where
  ingestion_id : Nat
  status : BatchStatus
  batches : List BatchView
deriving DecidableEq, Repr

/-- Controller `getIngestionStatus`: 404 for unknown ids, otherwise the
recomputed overall status and the batch views in stored order. -/
def getIngestionStatus (store : List (Nat × ReqRec)) (rid : Nat) :
    Except String StatusResponse :=
  match List.lookup rid store with
  | none => Except.error "Ingestion ID not found."
  | some r =>
    Except.ok ⟨rid, calculateOverallStatus r.batches,
      r.batches.map fun b => ⟨b.batch_id, b.ids, b.status⟩⟩

/-- Events of the event loop: a `POST /ingest` request, a timer callback
running `processQueue`, and the resolution of an in-flight batch promise
followed by its `processQueue` continuation. Each carries the clock time. -/
inductive Step : Nat → SysState → SysState → Prop where
  | submit (now : Nat) (body : IngestBody) (s : SysState) :
      Step now s (handleIngestRequest now body s).2
  | wake (now : Nat) (s : SysState) :
      Step now s (processQueue now s)
  | complete (now : Nat) (delays : Int → Nat) (rid bid : Nat) (s : SysState) :
      (rid, bid) ∈ s.inflight →
      Step now s (processQueue now (completeBatch delays rid bid s))

/-- Executions: sequences of steps with nondecreasing clock times starting
at a time bound. -/
inductive ExecFrom : Nat → SysState → SysState → Prop where
  | refl (t : Nat) (s : SysState) : ExecFrom t s s
  | step {t now : Nat} {s s1 s2 : SysState} :
      t ≤ now → Step now s s1 → ExecFrom now s1 s2 → ExecFrom t s s2

/-- States reachable from module load. -/
def Reachable (s : SysState) : Prop := ExecFrom 0 initState s

/-- The min-heap property of the array: every non-root node is at least its
parent under `_getJobPriorityValue`. -/
def IsHeap (l : List Job) : Prop :=
  ∀ i, 0 < i → i < l.length → keyAt l (parentIdx i) ≤ keyAt l i

/-- The batch object a queued job refers to, exactly as `processQueue` looks
it up. -/
def jobBatch (s : SysState) (j : Job) : Option BatchRec :=
  (List.lookup j.ingestionId s.store).bind
    (fun r => r.batches.find? fun b => b.batch_id == j.batchId)

/-- A queued job is fresh when its batch still is `yet_to_start` (a stale job
is one `processQueue` discards). -/
def jobFresh (s : SysState) (j : Job) : Prop :=
  ∃ b, jobBatch s j = some b ∧ b.status = BatchStatus.yet_to_start

/-- Same-priority FIFO of admissions: whenever a batch of the later-submitted
of two same-priority requests is admitted, every batch of the earlier one was
admitted strictly before. -/
def FifoProp (s : SysState) : Prop :=
  ∀ ridA rA ridB rB, List.lookup ridA s.store = some rA →
    List.lookup ridB s.store = some rB →
    rA.priority = rB.priority → rA.createdAt < rB.createdAt →
    ∀ i e, s.admissions.get? i = some e → e.2.1 = ridB →
    ∀ b ∈ rA.batches, ∃ j, j < i ∧ ∃ e2, s.admissions.get? j = some e2 ∧
      e2.2.1 = ridA ∧ e2.2.2 = b.batch_id

/-- Outcome of a `processQueue` run that admits nothing: only stale jobs are
discarded; store, rate-limit state, promises and the admission trace are
untouched, and every fresh job stays queued. -/
def PQUnchanged (s s' : SysState) : Prop :=
  s'.store = s.store ∧ s'.lastProcessingStartTime = s.lastProcessingStartTime ∧
  s'.admissions = s.admissions ∧ s'.inflight = s.inflight ∧ s'.nextId = s.nextId ∧
  (∀ a ∈ s'.queue, a ∈ s.queue) ∧ (∀ a ∈ s.queue, jobFresh s a → a ∈ s'.queue)

/-- Outcome of a `processQueue` run that admits exactly one fresh job: the
rate-limit guard held, the batch moves to `triggered`, and the admitted job
had a minimal scalar key among all fresh queued jobs. -/
def PQAdmit (now : Nat) (s s' : SysState) : Prop :=
  ∃ job b, jobBatch s job = some b ∧ b.status = BatchStatus.yet_to_start ∧
    job ∈ s.queue ∧
    s.lastProcessingStartTime + RATE_LIMIT_MS ≤ now ∧
    s'.store = updateBatch s.store job.ingestionId job.batchId BatchStatus.triggered ∧
    s'.lastProcessingStartTime = now ∧
    s'.admissions = s.admissions ++ [(now, job.ingestionId, job.batchId)] ∧
    s'.inflight = (job.ingestionId, job.batchId) :: s.inflight ∧
    s'.nextId = s.nextId ∧
    (∀ a ∈ s'.queue, a ∈ s.queue) ∧
    (∀ a ∈ s.queue, jobFresh s a → a ≠ job → a ∈ s'.queue) ∧
    (∀ a ∈ s.queue, jobFresh s a → scaledKey job ≤ scaledKey a)

/-- The system invariant at states whose clock has reached at most `t`. -/
structure GoodAt (s : SysState) (t : Nat) : Prop where
  heap : IsHeap s.queue
  last_le : s.lastProcessingStartTime ≤ t
  adm_chain : List.Chain' (fun a b => a.1 + RATE_LIMIT_MS ≤ b.1) s.admissions
  adm_last : (s.admissions = [] ∧ s.lastProcessingStartTime = 0) ∨
    (∃ e, s.admissions.getLast? = some e ∧ e.1 = s.lastProcessingStartTime)
  created_le : ∀ p ∈ s.store, (p : Nat × ReqRec).2.createdAt ≤ t
  rid_lt : ∀ p ∈ s.store, (p : Nat × ReqRec).1 < s.nextId
  bid_lt : ∀ p ∈ s.store, ∀ b ∈ (p : Nat × ReqRec).2.batches, b.batch_id < s.nextId
  bids_nodup : ∀ p ∈ s.store, (((p : Nat × ReqRec).2.batches.map BatchRec.batch_id)).Nodup
  queue_wf : ∀ j ∈ s.queue, ∃ r, List.lookup j.ingestionId s.store = some r ∧
    j.priority = r.priority ∧ j.createdAt = r.createdAt ∧
    ∃ b ∈ r.batches, b.batch_id = j.batchId
  yts_queue : ∀ rid r, List.lookup rid s.store = some r → ∀ b ∈ r.batches,
    b.status = BatchStatus.yet_to_start →
    (⟨rid, b.batch_id, r.priority, r.createdAt⟩ : Job) ∈ s.queue
  adm_rec : ∀ rid r, List.lookup rid s.store = some r → ∀ b ∈ r.batches,
    b.status ≠ BatchStatus.yet_to_start →
    ∃ e ∈ s.admissions, (e : Nat × Nat × Nat).2.1 = rid ∧ e.2.2 = b.batch_id
  adm_rid_lt : ∀ e ∈ s.admissions, (e : Nat × Nat × Nat).2.1 < s.nextId
  inflight_wf : ∀ q ∈ s.inflight, ∃ r b, List.lookup (q : Nat × Nat).1 s.store = some r ∧
    b ∈ r.batches ∧ b.batch_id = q.2 ∧ b.status = BatchStatus.triggered
  inflight_nodup : s.inflight.Nodup
  no_failed : ∀ p ∈ s.store, ∀ b ∈ (p : Nat × ReqRec).2.batches,
    b.status ≠ BatchStatus.failed
  batches_chunks : ∀ p ∈ s.store,
    ((p : Nat × ReqRec).2.batches.map BatchRec.ids) = batchChunks p.2.original_ids
  fifo : FifoProp s

/-- Modelled from the spec: the batch state machine
`yet_to_start → triggered → {completed, failed}` with `completed` and
`failed` terminal. `statusLe a b` holds when the machine may evolve from
`a` to `b` (reflexively). -/
def statusLe : BatchStatus → BatchStatus → Prop
  | BatchStatus.yet_to_start, _ => True
  | BatchStatus.triggered, BatchStatus.yet_to_start => False
  | BatchStatus.triggered, _ => True
  | BatchStatus.completed, x => x = BatchStatus.completed
  | BatchStatus.failed, x => x = BatchStatus.failed

/-- Per-batch evolution between two stores: every record key persists and
every batch persists (by id) with a status that only advances along
`statusLe`. -/
def StoreMono (st st' : List (Nat × ReqRec)) : Prop :=
  ∀ rid r, List.lookup rid st = some r → ∃ r', List.lookup rid st' = some r' ∧
    ∀ b ∈ r.batches, ∃ b' ∈ r'.batches, b'.batch_id = b.batch_id ∧
      statusLe b.status b'.status

/-! Index lemmas for the heap array model. -/

@[simp] theorem length_heapSwap (l : List Job) (i j : Nat) :
    (heapSwap l i j).length = l.length := by
  simp [heapSwap]

theorem smallestChild_cases (l : List Job) (i : Nat) :
    smallestChild l i = 2 * i + 1 ∨ smallestChild l i = 2 * i + 2 := by
  unfold smallestChild
  split
  · exact Or.inr rfl
  · exact Or.inl rfl

theorem smallestChild_lt_length {l : List Job} {i : Nat} (h : 2 * i + 1 < l.length) :
    smallestChild l i < l.length := by
  unfold smallestChild
  split
  · rename_i hc
    exact hc.1
  · exact h

theorem lt_smallestChild (l : List Job) (i : Nat) : i < smallestChild l i := by
  rcases smallestChild_cases l i with h | h <;> omega

theorem parentIdx_lt {i : Nat} (h : 0 < i) : parentIdx i < i := by
  unfold parentIdx; omega

theorem parentIdx_eq_iff {i j : Nat} (hj : 0 < j) :
    parentIdx j = i ↔ j = 2 * i + 1 ∨ j = 2 * i + 2 := by
  unfold parentIdx; omega

theorem heapAt_cons_zero (a : Job) (t : List Job) : heapAt (a :: t) 0 = a := by
  simp [heapAt]

theorem heapAt_cons_succ (a : Job) (t : List Job) (n : Nat) :
    heapAt (a :: t) (n + 1) = heapAt t n := by
  simp [heapAt]

theorem keyAt_cons_succ (a : Job) (t : List Job) (n : Nat) :
    keyAt (a :: t) (n + 1) = keyAt t n := by
  simp [keyAt, heapAt_cons_succ]

theorem heapAt_set_eq {l : List Job} {i : Nat} (h : i < l.length) (x : Job) :
    heapAt (l.set i x) i = x := by
  simp [heapAt, List.getElem?_set_eq_of_lt, h]

theorem heapAt_set_ne (l : List Job) {i j : Nat} (hij : i ≠ j) (x : Job) :
    heapAt (l.set i x) j = heapAt l j := by
  simp [heapAt, List.getElem?_set_ne hij]

theorem heapAt_append_lt {l : List Job} {i : Nat} (h : i < l.length) (x : Job) :
    heapAt (l ++ [x]) i = heapAt l i := by
  simp [heapAt, List.getElem?_append_left h]

theorem heapAt_append_len (l : List Job) (x : Job) :
    heapAt (l ++ [x]) l.length = x := by
  simp [heapAt]

theorem set_heapAt_self (l : List Job) : ∀ (i : Nat), i < l.length →
    l.set i (heapAt l i) = l := by
  induction l with
  | nil => intro i h; simp at h
  | cons a t ih =>
    intro i h
    cases i with
    | zero => simp [heapAt_cons_zero]
    | succ n =>
      have : n < t.length := by simpa using h
      simp [heapAt_cons_succ, ih n this]

theorem heapAt_heapSwap_fst {l : List Job} {i j : Nat} (hi : i < l.length) (hij : i ≠ j) :
    heapAt (heapSwap l i j) i = heapAt l j := by
  unfold heapSwap
  rw [heapAt_set_ne _ (Ne.symm hij), heapAt_set_eq hi]

theorem heapAt_heapSwap_snd {l : List Job} {i j : Nat} (hj : j < l.length) :
    heapAt (heapSwap l i j) j = heapAt l i := by
  unfold heapSwap
  exact heapAt_set_eq (by simpa using hj) _

theorem heapAt_heapSwap_other (l : List Job) {i j k : Nat} (hik : k ≠ i) (hjk : k ≠ j) :
    heapAt (heapSwap l i j) k = heapAt l k := by
  unfold heapSwap
  rw [heapAt_set_ne _ (Ne.symm hjk), heapAt_set_ne _ (Ne.symm hik)]

theorem keyAt_heapSwap_fst {l : List Job} {i j : Nat} (hi : i < l.length) (hij : i ≠ j) :
    keyAt (heapSwap l i j) i = keyAt l j :=
  congrArg scaledKey (heapAt_heapSwap_fst hi hij)

theorem keyAt_heapSwap_snd {l : List Job} {i j : Nat} (hj : j < l.length) :
    keyAt (heapSwap l i j) j = keyAt l i :=
  congrArg scaledKey (heapAt_heapSwap_snd hj)

theorem keyAt_heapSwap_other (l : List Job) {i j k : Nat} (hik : k ≠ i) (hjk : k ≠ j) :
    keyAt (heapSwap l i j) k = keyAt l k :=
  congrArg scaledKey (heapAt_heapSwap_other l hik hjk)

/-- Swapping the head with position `k` of the tail is a permutation. -/
theorem perm_headSwap : ∀ (t : List Job) (k : Nat), k < t.length → ∀ (a : Job),
    (heapAt t k :: t.set k a).Perm (a :: t) := by
  intro t
  induction t with
  | nil => intro k h; simp at h
  | cons b t2 ih =>
    intro k h a
    cases k with
    | zero =>
      simp only [heapAt_cons_zero, List.set_cons_zero]
      exact List.Perm.swap a b t2
    | succ m =>
      have hm : m < t2.length := by simpa using h
      simp only [heapAt_cons_succ, List.set_cons_succ]
      exact (List.Perm.swap b (heapAt t2 m) _).trans
        ((List.Perm.cons b (ih m hm a)).trans (List.Perm.swap a b t2))

/-- The JS destructuring swap permutes the heap array. -/
theorem perm_heapSwap : ∀ (l : List Job) (i j : Nat), i < l.length → j < l.length →
    (heapSwap l i j).Perm l := by
  intro l
  induction l with
  | nil => intro i j h; simp at h
  | cons a t ih =>
    intro i j hi hj
    rcases Nat.lt_trichotomy i j with hij | hij | hij
    · cases i with
      | zero =>
        cases j with
        | zero => omega
        | succ k =>
          have hk : k < t.length := by simpa using hj
          show ((((a :: t).set 0 (heapAt (a :: t) (k + 1))).set (k + 1)
            (heapAt (a :: t) 0))).Perm (a :: t)
          simp only [heapAt_cons_succ, heapAt_cons_zero, List.set_cons_zero, List.set_cons_succ]
          exact perm_headSwap t k hk a
      | succ m =>
        cases j with
        | zero => omega
        | succ k =>
          have hm : m < t.length := by simpa using hi
          have hk : k < t.length := by simpa using hj
          show ((((a :: t).set (m + 1) (heapAt (a :: t) (k + 1))).set (k + 1)
            (heapAt (a :: t) (m + 1)))).Perm (a :: t)
          simp only [heapAt_cons_succ, List.set_cons_succ]
          exact List.Perm.cons a (ih m k hm hk)
    · subst hij
      show (heapSwap (a :: t) i i).Perm (a :: t)
      unfold heapSwap
      rw [List.set_set, set_heapAt_self _ i hi]
    · have hsymm : heapSwap (a :: t) i j = heapSwap (a :: t) j i := by
        unfold heapSwap
        exact List.set_comm _ _ _ (by omega)
      rw [hsymm]
      cases j with
      | zero =>
        cases i with
        | zero => omega
        | succ k =>
          have hk : k < t.length := by simpa using hi
          show ((((a :: t).set 0 (heapAt (a :: t) (k + 1))).set (k + 1)
            (heapAt (a :: t) 0))).Perm (a :: t)
          simp only [heapAt_cons_succ, heapAt_cons_zero, List.set_cons_zero, List.set_cons_succ]
          exact perm_headSwap t k hk a
      | succ m =>
        cases i with
        | zero => omega
        | succ k =>
          have hm : m < t.length := by simpa using hj
          have hk : k < t.length := by simpa using hi
          show ((((a :: t).set (m + 1) (heapAt (a :: t) (k + 1))).set (k + 1)
            (heapAt (a :: t) (m + 1)))).Perm (a :: t)
          simp only [heapAt_cons_succ, List.set_cons_succ]
          exact List.Perm.cons a (ih m k hm hk)

/-! Permutation lemmas: the queue operations only rearrange the array. -/

theorem siftUpGo_perm : ∀ (fuel : Nat) (l : List Job) (i : Nat), i < l.length →
    (siftUpGo fuel l i).Perm l := by
  intro fuel
  induction fuel with
  | zero =>
    intro l i _
    exact List.Perm.refl l
  | succ fuel ih =>
    intro l i hi
    unfold siftUpGo
    by_cases h0 : i = 0
    · rw [if_pos h0]
    · rw [if_neg h0]
      by_cases hlt : keyAt l i < keyAt l (parentIdx i)
      · rw [if_pos hlt]
        have hp : parentIdx i < i := parentIdx_lt (Nat.pos_of_ne_zero h0)
        exact (ih _ _ (by simpa using lt_trans hp hi)).trans
          (perm_heapSwap l i _ hi (lt_trans hp hi))
      · rw [if_neg hlt]

theorem siftUp_perm (l : List Job) (i : Nat) : i < l.length → (siftUp l i).Perm l :=
  siftUpGo_perm (i + 1) l i

theorem siftDownGo_perm : ∀ (fuel : Nat) (l : List Job) (i : Nat),
    (siftDownGo fuel l i).Perm l := by
  intro fuel
  induction fuel with
  | zero =>
    intro l i
    exact List.Perm.refl l
  | succ fuel ih =>
    intro l i
    unfold siftDownGo
    by_cases hl : 2 * i + 1 < l.length
    · rw [if_pos hl]
      by_cases hle : keyAt l i ≤ keyAt l (smallestChild l i)
      · rw [if_pos hle]
      · rw [if_neg hle]
        have hi : i < l.length := by omega
        exact (ih _ _).trans (perm_heapSwap l i _ hi (smallestChild_lt_length hl))
    · rw [if_neg hl]

theorem siftDown_perm (l : List Job) (i : Nat) : (siftDown l i).Perm l :=
  siftDownGo_perm l.length l i

theorem enqueue_perm (l : List Job) (x : Job) : (enqueue l x).Perm (x :: l) := by
  unfold enqueue
  have h1 : (l ++ [x]).length - 1 < (l ++ [x]).length := by simp
  exact (siftUp_perm _ _ h1).trans (List.perm_append_singleton x l)

theorem dequeue_fst (a : Job) (rest : List Job) : (dequeue (a :: rest)).1 = some a := by
  simp only [dequeue]
  split <;> rfl

theorem dequeue_snd_perm (a : Job) (rest : List Job) : (dequeue (a :: rest)).2.Perm rest := by
  cases rest with
  | nil => simp [dequeue]
  | cons b t =>
    have hne : (b :: t) ≠ [] := by simp
    have hdl : (a :: b :: t).dropLast = a :: (b :: t).dropLast :=
      List.dropLast_cons_of_ne_nil hne
    have hlast : (a :: b :: t).getLast (by simp) = (b :: t).getLast hne :=
      List.getLast_cons hne
    have hlen : ((a :: b :: t).dropLast).length > 0 := by
      rw [hdl]; simp
    simp only [dequeue, if_pos hlen]
    rw [hdl, hlast, List.set_cons_zero]
    refine (siftDown_perm _ 0).trans ?_
    have := List.perm_append_singleton ((b :: t).getLast hne) ((b :: t).dropLast)
    have h2 : (b :: t).dropLast ++ [(b :: t).getLast hne] = b :: t :=
      List.dropLast_append_getLast hne
    exact (h2 ▸ this).symm

/-- Contents after a successful dequeue: the head is returned, the rest is a
permutation of the tail. -/
theorem dequeue_some_perm {l q : List Job} {j : Job} (h : dequeue l = (some j, q)) :
    ∃ rest, l = j :: rest ∧ q.Perm rest := by
  cases l with
  | nil => simp [dequeue] at h
  | cons a rest =>
    have h1 := dequeue_fst a rest
    have h2 := dequeue_snd_perm a rest
    rw [h] at h1 h2
    simp at h1
    exact ⟨rest, by rw [h1], h2⟩

/-! The binary min-heap invariant and the root-minimality property. -/

theorem isHeap_nil : IsHeap [] := by
  intro i _ h2
  simp at h2

theorem isHeap_singleton (x : Job) : IsHeap [x] := by
  intro i h1 h2
  simp at h2
  omega

theorem isHeap_root_min {l : List Job} (hh : IsHeap l) :
    ∀ i, i < l.length → keyAt l 0 ≤ keyAt l i := by
  intro i
  induction i using Nat.strong_induction_on with
  | _ i ih =>
    intro hi
    rcases Nat.eq_zero_or_pos i with h0 | hpos
    · subst h0
      exact le_refl _
    · exact le_trans
        (ih (parentIdx i) (parentIdx_lt hpos) (lt_trans (parentIdx_lt hpos) hi))
        (hh i hpos hi)

theorem parentIdx_left (i : Nat) : parentIdx (2 * i + 1) = i := by
  unfold parentIdx; omega

theorem parentIdx_right (i : Nat) : parentIdx (2 * i + 2) = i := by
  unfold parentIdx; omega

theorem parentIdx_smallestChild (l : List Job) (i : Nat) :
    parentIdx (smallestChild l i) = i := by
  rcases smallestChild_cases l i with h | h <;> rw [h]
  · exact parentIdx_left i
  · exact parentIdx_right i

/-- The selected child has the minimal key among the existing children. -/
theorem smallestChild_min {l : List Job} {i c : Nat} (hc0 : 0 < c) (hclen : c < l.length)
    (hp : parentIdx c = i) : keyAt l (smallestChild l i) ≤ keyAt l c := by
  rcases (parentIdx_eq_iff hc0).1 hp with h | h <;> subst h <;> unfold smallestChild
  · split
    · rename_i hcond
      exact le_of_lt hcond.2
    · exact le_refl _
  · split
    · exact le_refl _
    · rename_i hcond
      push_neg at hcond
      exact hcond hclen

/-- Heap property everywhere except possibly at the pair (parent of `i`, `i`):
the precondition of `_siftUp`. -/
def UpExcept (l : List Job) (i : Nat) : Prop :=
  ∀ j, 0 < j → j < l.length → j ≠ i → keyAt l (parentIdx j) ≤ keyAt l j

/-- The grandparent bound carried through `_siftUp`: the parent of `i` already
bounds the children of `i`. -/
def UpGrand (l : List Job) (i : Nat) : Prop :=
  0 < i → ∀ j, j < l.length → parentIdx j = i → keyAt l (parentIdx i) ≤ keyAt l j

theorem siftUpGo_isHeap : ∀ (fuel : Nat) (l : List Job) (i : Nat), i < fuel →
    i < l.length → UpExcept l i → UpGrand l i → IsHeap (siftUpGo fuel l i) := by
  intro fuel
  induction fuel with
  | zero =>
    intro l i hf
    omega
  | succ fuel ih =>
    intro l i hf hi hex hgr
    unfold siftUpGo
    by_cases h0 : i = 0
    · rw [if_pos h0]
      intro j hj0 hjlen
      exact hex j hj0 hjlen (by omega)
    · rw [if_neg h0]
      have hi0 : 0 < i := Nat.pos_of_ne_zero h0
      have hplt : parentIdx i < i := parentIdx_lt hi0
      have hplen : parentIdx i < l.length := lt_trans hplt hi
      by_cases hlt : keyAt l i < keyAt l (parentIdx i)
      · rw [if_pos hlt]
        refine ih _ _ (by omega) (by simpa using hplen) ?_ ?_
        · -- heap property except at the new hole
          intro j hj0 hjlen hjne
          rw [length_heapSwap] at hjlen
          by_cases hji : j = i
          · subst hji
            rw [keyAt_heapSwap_snd hplen, keyAt_heapSwap_fst hi (ne_of_gt hplt)]
            exact le_of_lt hlt
          · by_cases hpj : parentIdx j = i
            · rw [hpj, keyAt_heapSwap_fst hi (ne_of_gt hplt),
                keyAt_heapSwap_other l hji hjne]
              exact hgr hi0 j hjlen hpj
            · by_cases hpj2 : parentIdx j = parentIdx i
              · rw [hpj2, keyAt_heapSwap_snd hplen, keyAt_heapSwap_other l hji hjne]
                have h1 : keyAt l (parentIdx j) ≤ keyAt l j := hex j hj0 hjlen hji
                rw [hpj2] at h1
                exact le_trans (le_of_lt hlt) h1
              · rw [keyAt_heapSwap_other l hpj hpj2, keyAt_heapSwap_other l hji hjne]
                exact hex j hj0 hjlen hji
        · -- grandparent bound at the new hole
          intro hp0 j hjlen hpj
          rw [length_heapSwap] at hjlen
          have hpp_lt : parentIdx (parentIdx i) < parentIdx i := parentIdx_lt hp0
          have hppi : parentIdx (parentIdx i) ≠ i := ne_of_lt (lt_trans hpp_lt hplt)
          have hppp : parentIdx (parentIdx i) ≠ parentIdx i := ne_of_lt hpp_lt
          rw [keyAt_heapSwap_other l hppi hppp]
          by_cases hji : j = i
          · rw [hji, keyAt_heapSwap_fst hi (ne_of_gt hplt)]
            exact hex (parentIdx i) hp0 hplen (ne_of_lt hplt)
          · have hj0 : 0 < j := by
              rcases Nat.eq_zero_or_pos j with h0 | h0
              · exfalso
                rw [h0] at hpj
                have h00 : parentIdx 0 = 0 := rfl
                rw [h00] at hpj
                omega
              · exact h0
            have hjne : j ≠ parentIdx i := by
              have h2 : parentIdx j < j := parentIdx_lt hj0
              rw [hpj] at h2
              exact ne_of_gt h2
            rw [keyAt_heapSwap_other l hji hjne]
            have h1 : keyAt l (parentIdx j) ≤ keyAt l j := hex j hj0 hjlen hji
            rw [hpj] at h1
            exact le_trans (hex (parentIdx i) hp0 hplen (ne_of_lt hplt)) h1
      · rw [if_neg hlt]
        intro j hj0 hjlen
        by_cases hji : j = i
        · subst hji
          exact le_of_not_lt hlt
        · exact hex j hj0 hjlen hji

theorem siftUp_isHeap (l : List Job) (i : Nat) (hi : i < l.length)
    (hex : UpExcept l i) (hgr : UpGrand l i) : IsHeap (siftUp l i) :=
  siftUpGo_isHeap (i + 1) l i (Nat.lt_succ_self i) hi hex hgr

theorem keyAt_append_lt {l : List Job} {i : Nat} (h : i < l.length) (x : Job) :
    keyAt (l ++ [x]) i = keyAt l i :=
  congrArg scaledKey (heapAt_append_lt h x)

/-- Method `enqueue` preserves the heap property. -/
theorem enqueue_isHeap {l : List Job} (hh : IsHeap l) (x : Job) : IsHeap (enqueue l x) := by
  unfold enqueue
  have hlen : (l ++ [x]).length - 1 = l.length := by simp
  rw [hlen]
  apply siftUp_isHeap
  · simp
  · intro j hj0 hjlen hjne
    have hjlt : j < l.length := by
      simp only [List.length_append, List.length_singleton] at hjlen
      omega
    have hplt : parentIdx j < l.length := lt_trans (parentIdx_lt hj0) hjlt
    rw [keyAt_append_lt hjlt, keyAt_append_lt hplt]
    exact hh j hj0 hjlt
  · intro h0 j hjlen hpj
    exfalso
    rcases Nat.eq_zero_or_pos j with hj0 | hj0
    · subst hj0
      simp [parentIdx] at hpj
      omega
    · have := parentIdx_lt hj0
      simp only [List.length_append, List.length_singleton] at hjlen
      omega

/-- Heap property everywhere except possibly between `i` and its children:
the precondition of `_siftDown`. -/
def DownExcept (l : List Job) (i : Nat) : Prop :=
  ∀ j, 0 < j → j < l.length → parentIdx j ≠ i → keyAt l (parentIdx j) ≤ keyAt l j

/-- The grandparent bound carried through `_siftDown`: the parent of `i`
already bounds the children of `i`. -/
def DownGrand (l : List Job) (i : Nat) : Prop :=
  0 < i → ∀ j, j < l.length → parentIdx j = i → keyAt l (parentIdx i) ≤ keyAt l j

theorem siftDownGo_isHeap : ∀ (fuel : Nat) (l : List Job) (i : Nat), l.length ≤ fuel + i →
    DownExcept l i → DownGrand l i → IsHeap (siftDownGo fuel l i) := by
  intro fuel
  induction fuel with
  | zero =>
    intro l i hf hex _
    show IsHeap l
    intro j hj0 hjlen
    by_cases hpj : parentIdx j = i
    · exfalso
      rcases (parentIdx_eq_iff hj0).1 hpj with h | h <;> omega
    · exact hex j hj0 hjlen hpj
  | succ fuel ih =>
    intro l i hf hex hgr
    unfold siftDownGo
    by_cases hl : 2 * i + 1 < l.length
    swap
    · rw [if_neg hl]
      intro j hj0 hjlen
      by_cases hpj : parentIdx j = i
      · exfalso
        rcases (parentIdx_eq_iff hj0).1 hpj with h | h <;> omega
      · exact hex j hj0 hjlen hpj
    · rw [if_pos hl]
      have hsml : smallestChild l i < l.length := smallestChild_lt_length hl
      have hism : i < smallestChild l i := lt_smallestChild l i
      have hi : i < l.length := lt_trans hism hsml
      have hpsm : parentIdx (smallestChild l i) = i := parentIdx_smallestChild l i
      by_cases hle : keyAt l i ≤ keyAt l (smallestChild l i)
      · rw [if_pos hle]
        intro j hj0 hjlen
        by_cases hpj : parentIdx j = i
        · rw [hpj]
          exact le_trans hle (smallestChild_min hj0 hjlen hpj)
        · exact hex j hj0 hjlen hpj
      · rw [if_neg hle]
        have hlt : keyAt l (smallestChild l i) < keyAt l i := lt_of_not_le hle
        refine ih _ _ (by rw [length_heapSwap]; omega) ?_ ?_
        · -- heap property except at the children of the new hole
          intro j hj0 hjlen hpj_ne
          rw [length_heapSwap] at hjlen
          by_cases hjsm : j = smallestChild l i
          · rw [hjsm, hpsm, keyAt_heapSwap_fst hi (ne_of_lt hism), keyAt_heapSwap_snd hsml]
            exact le_of_lt hlt
          · by_cases hpj : parentIdx j = i
            · have hji : j ≠ i := by
                intro hc
                rcases Nat.eq_zero_or_pos i with h0 | h0
                · rw [h0] at hc
                  exact absurd hc (Nat.pos_iff_ne_zero.1 hj0)
                · rw [hc] at hpj
                  exact absurd hpj (ne_of_lt (parentIdx_lt h0))
              rw [hpj, keyAt_heapSwap_fst hi (ne_of_lt hism),
                keyAt_heapSwap_other l hji hjsm]
              exact smallestChild_min hj0 hjlen hpj
            · by_cases hji : j = i
              · rw [hji] at hj0 ⊢
                have hpi_lt : parentIdx i < i := parentIdx_lt hj0
                have h1 : parentIdx i ≠ i := ne_of_lt hpi_lt
                have h2 : parentIdx i ≠ smallestChild l i := ne_of_lt (lt_trans hpi_lt hism)
                rw [keyAt_heapSwap_other l h1 h2, keyAt_heapSwap_fst hi (ne_of_lt hism)]
                exact hgr hj0 (smallestChild l i) hsml hpsm
              · rw [keyAt_heapSwap_other l hpj hpj_ne, keyAt_heapSwap_other l hji hjsm]
                exact hex j hj0 hjlen hpj
        · -- grandparent bound at the new hole
          intro hsm0 j hjlen hpj
          rw [length_heapSwap] at hjlen
          have hj0 : 0 < j := by
            rcases Nat.eq_zero_or_pos j with h0 | h0
            · exfalso
              rw [h0] at hpj
              have h00 : parentIdx 0 = 0 := rfl
              rw [h00] at hpj
              omega
            · exact h0
          have hjgt : smallestChild l i < j := by
            have h2 : parentIdx j < j := parentIdx_lt hj0
            rw [hpj] at h2
            exact h2
          have hji : j ≠ i := ne_of_gt (lt_trans hism hjgt)
          have hjsm : j ≠ smallestChild l i := ne_of_gt hjgt
          rw [hpsm, keyAt_heapSwap_fst hi (ne_of_lt hism), keyAt_heapSwap_other l hji hjsm]
          have h3 := hex j hj0 hjlen (by rw [hpj]; exact ne_of_gt hism)
          rw [hpj] at h3
          exact h3

theorem siftDown_isHeap (l : List Job) (i : Nat)
    (hex : DownExcept l i) (hgr : DownGrand l i) : IsHeap (siftDown l i) :=
  siftDownGo_isHeap l.length l i (Nat.le_add_right _ _) hex hgr

theorem heapAt_dropLast {l : List Job} {k : Nat} (h : k < l.length - 1) :
    heapAt l.dropLast k = heapAt l k := by
  have h1 : k < l.dropLast.length := by
    rw [List.length_dropLast]
    omega
  have h2 : k < l.length := by omega
  simp [heapAt, List.getElem?_eq_getElem h1, List.getElem?_eq_getElem h2,
    List.getElem_dropLast]

theorem keyAt_popSet {L : List Job} (x : Job) {k : Nat} (h1 : 1 ≤ k) (h2 : k < L.length - 1) :
    keyAt ((L.dropLast).set 0 x) k = keyAt L k := by
  unfold keyAt
  rw [heapAt_set_ne _ (by omega), heapAt_dropLast h2]

/-- Method `dequeue` preserves the heap property. -/
theorem dequeue_isHeap {l : List Job} (hh : IsHeap l) : IsHeap ((dequeue l).2) := by
  cases l with
  | nil => simpa [dequeue] using isHeap_nil
  | cons a rest =>
    cases rest with
    | nil =>
      simp only [dequeue]
      simpa using isHeap_nil
    | cons b t =>
      have hne : (b :: t) ≠ [] := by simp
      have hdl : (a :: b :: t).dropLast = a :: (b :: t).dropLast :=
        List.dropLast_cons_of_ne_nil hne
      have hlen : ((a :: b :: t).dropLast).length > 0 := by
        rw [hdl]
        simp
      simp only [dequeue, if_pos hlen]
      apply siftDown_isHeap
      · intro j hj0 hjlen hpj
        have hjlen' : j < (a :: b :: t).length - 1 := by
          simpa [List.length_set, List.length_dropLast] using hjlen
        have hp1 : 1 ≤ parentIdx j := Nat.pos_of_ne_zero hpj
        have hplt : parentIdx j < j := parentIdx_lt hj0
        rw [keyAt_popSet _ hp1 (by omega), keyAt_popSet _ hj0 hjlen']
        exact hh j hj0 (by omega)
      · intro h0
        exact absurd h0 (lt_irrefl 0)

theorem heapAt_eq_get {l : List Job} {n : Nat} (h : n < l.length) :
    heapAt l n = l.get ⟨n, h⟩ := by
  simp [heapAt, List.getElem?_eq_getElem h]

/-- In a heap, the head is at most every element of the tail. -/
theorem isHeap_head_le {x : Job} {rest : List Job} (hh : IsHeap (x :: rest)) :
    ∀ a ∈ rest, scaledKey x ≤ scaledKey a := by
  intro a ha
  obtain ⟨⟨n, hn⟩, hget⟩ := List.mem_iff_get.1 ha
  have h1 : n + 1 < (x :: rest).length := by simpa using Nat.succ_lt_succ hn
  have h2 := isHeap_root_min hh (n + 1) h1
  unfold keyAt at h2
  rw [heapAt_cons_zero, heapAt_cons_succ, heapAt_eq_get hn, hget] at h2
  exact h2

/-- Method `dequeue` returns a minimum-key job: every job left in the queue
has a key at least as large. -/
theorem dequeue_min {l : List Job} (hh : IsHeap l) {j : Job} {q : List Job}
    (h : dequeue l = (some j, q)) :
    ∀ a ∈ q, scaledKey j ≤ scaledKey a := by
  obtain ⟨rest, rfl, hperm⟩ := dequeue_some_perm h
  intro a ha
  exact isHeap_head_le hh a (hperm.mem_iff.1 ha)

/-! Relating the scalar key of the code to the composite key of the spec. -/

theorem priorityMap_eq_rank (p : Priority) : priorityMap p = (priorityRank p : ℚ) := by
  cases p <;> simp [priorityMap, priorityRank]

/-- The float key of `_getJobPriorityValue` equals the integer key divided by
1e14; hence the two orders coincide and the integer heap comparisons are a
faithful rendering of the code's comparisons. -/
theorem getJobPriorityValue_eq_scaled (j : Job) :
    getJobPriorityValue j = (scaledKey j : ℚ) / 100000000000000 := by
  unfold getJobPriorityValue scaledKey
  rw [priorityMap_eq_rank]
  push_cast
  field_simp

theorem scaledKey_lt_iff (a b : Job) :
    scaledKey a < scaledKey b ↔ getJobPriorityValue a < getJobPriorityValue b := by
  rw [getJobPriorityValue_eq_scaled, getJobPriorityValue_eq_scaled]
  rw [div_lt_div_iff_of_pos_right (by norm_num : (0 : ℚ) < 100000000000000)]
  exact_mod_cast Iff.rfl

theorem scaledKey_lt_of_compositeLt {a b : Job} (ha : a.createdAt < tsBound)
    (hb : b.createdAt < tsBound) (h : compositeLt a b) :
    scaledKey a < scaledKey b := by
  have ha' : a.createdAt < 100000000000000 := ha
  have hb' : b.createdAt < 100000000000000 := hb
  unfold scaledKey
  rcases h with h | ⟨h1, h2⟩ <;> omega

theorem scaledKey_lt_same_priority {a b : Job} (hp : a.priority = b.priority)
    (ht : a.createdAt < b.createdAt) : scaledKey a < scaledKey b := by
  unfold scaledKey
  rw [hp]
  omega

/-! The heap property holds for every queue reachable by enqueue and dequeue
operations. -/

theorem foldl_applyOp_isHeap (ops : List QOp) :
    ∀ l, IsHeap l → IsHeap (ops.foldl applyOp l) := by
  induction ops with
  | nil => intro l h; simpa using h
  | cons op ops ih =>
    intro l h
    cases op with
    | enq j => exact ih _ (enqueue_isHeap h j)
    | deq => exact ih _ (dequeue_isHeap h)

theorem runOps_isHeap (ops : List QOp) : IsHeap (runOps ops) :=
  foldl_applyOp_isHeap ops [] isHeap_nil

theorem mem_of_mem_dequeue {l : List Job} {a : Job} (h : a ∈ (dequeue l).2) : a ∈ l := by
  cases l with
  | nil => simp [dequeue] at h
  | cons x rest =>
    exact List.mem_cons_of_mem x ((dequeue_snd_perm x rest).mem_iff.1 h)

/-! Claim C5. -/

/-- C5 counterexample: with a HIGH job timestamped 3e14 ms and a LOW job
timestamped 0 both in the queue, the LOW job (strictly larger composite key)
is dequeued first and the HIGH job (strictly smaller composite key) is
dequeued after it, violating the claimed invariant. -/
theorem claim5_counterexample :
    compositeLt cexJobHigh cexJobLow ∧
    runOps [QOp.enq cexJobHigh, QOp.enq cexJobLow] = [cexJobLow, cexJobHigh] ∧
    dequeue [cexJobLow, cexJobHigh] = (some cexJobLow, [cexJobHigh]) ∧
    dequeue [cexJobHigh] = (some cexJobHigh, []) := by
  refine ⟨by decide, ?_, ?_, ?_⟩ <;> rfl

/-- C5 (amended): for every sequence of enqueue and dequeue operations in
which every job still in the queue has createdAt below 1e14 ms, the next
dequeue returns a job such that no job remaining in the queue has a strictly
smaller composite (priorityRank, createdAt) key; hence no strictly smaller-key
job is dequeued after it. -/
theorem claim5_theorem (ops : List QOp)
    (hb : ∀ a ∈ runOps ops, a.createdAt < tsBound)
    {j : Job} {q : List Job} (hd : dequeue (runOps ops) = (some j, q)) :
    ∀ a ∈ q, ¬ compositeLt a j := by
  intro a ha hcl
  have hheap := runOps_isHeap ops
  have hmin := dequeue_min hheap hd a ha
  obtain ⟨rest, hcons, hperm⟩ := dequeue_some_perm hd
  have hjmem : j ∈ runOps ops := by
    rw [hcons]
    exact List.mem_cons_self j rest
  have hamem : a ∈ runOps ops := by
    rw [hcons]
    exact List.mem_cons_of_mem j (hperm.mem_iff.1 ha)
  have hkey := scaledKey_lt_of_compositeLt (hb a hamem) (hb j hjmem) hcl
  exact absurd hmin (not_le.2 hkey)

/-- C5 witness: the amended theorem applied to the concrete operation
sequence enqueuing `wJobA` then `wJobB`; the dequeue returns `wJobA` and the
remaining job `wJobB` has no smaller composite key. -/
theorem claim5_witness : ¬ compositeLt wJobB wJobA := by
  have hd : dequeue (runOps [QOp.enq wJobA, QOp.enq wJobB]) = (some wJobA, [wJobB]) := by
    decide
  exact claim5_theorem [QOp.enq wJobA, QOp.enq wJobB] (by decide) hd wJobB (by decide)

/-! Properties of the batch-splitting loop. -/

theorem batchChunksGo_join : ∀ (fuel : Nat) (ids : List Int) (i : Nat),
    ids.length ≤ BATCH_SIZE * fuel + i → (batchChunksGo fuel ids i).join = ids.drop i := by
  intro fuel
  induction fuel with
  | zero =>
    intro ids i hf
    have hd : ids.drop i = [] := List.drop_eq_nil_of_le (by simpa using hf)
    simp [batchChunksGo, hd]
  | succ fuel ih =>
    intro ids i hf
    unfold batchChunksGo
    by_cases hi : i < ids.length
    · rw [if_pos hi]
      have hjoin : ((ids.drop i).take BATCH_SIZE :: batchChunksGo fuel ids (i + BATCH_SIZE)).join
          = (ids.drop i).take BATCH_SIZE ++ (batchChunksGo fuel ids (i + BATCH_SIZE)).join := rfl
      rw [hjoin, ih ids (i + BATCH_SIZE) (by unfold BATCH_SIZE at hf ⊢; omega)]
      have h1 : ids.drop (i + BATCH_SIZE) = (ids.drop i).drop BATCH_SIZE := by
        rw [List.drop_drop]
      rw [h1, List.take_append_drop]
    · rw [if_neg hi]
      have hd : ids.drop i = [] := List.drop_eq_nil_of_le (by omega)
      simp [hd]

theorem batchChunksGo_length : ∀ (fuel : Nat) (ids : List Int) (i : Nat),
    ids.length ≤ BATCH_SIZE * fuel + i →
    (batchChunksGo fuel ids i).length = (ids.length - i + BATCH_SIZE - 1) / BATCH_SIZE := by
  intro fuel
  induction fuel with
  | zero =>
    intro ids i hf
    unfold BATCH_SIZE at hf ⊢
    simp [batchChunksGo]
    omega
  | succ fuel ih =>
    intro ids i hf
    unfold batchChunksGo
    by_cases hi : i < ids.length
    · rw [if_pos hi]
      rw [List.length_cons, ih ids (i + BATCH_SIZE) (by unfold BATCH_SIZE at hf ⊢; omega)]
      unfold BATCH_SIZE
      omega
    · rw [if_neg hi]
      unfold BATCH_SIZE
      simp
      omega

theorem batchChunksGo_get? : ∀ (fuel : Nat) (ids : List Int) (i k : Nat),
    ids.length ≤ BATCH_SIZE * fuel + i →
    (batchChunksGo fuel ids i).get? k =
      if i + BATCH_SIZE * k < ids.length then
        some ((ids.drop (i + BATCH_SIZE * k)).take BATCH_SIZE)
      else none := by
  intro fuel
  induction fuel with
  | zero =>
    intro ids i k hf
    rw [if_neg (by unfold BATCH_SIZE at hf ⊢; omega)]
    simp [batchChunksGo]
  | succ fuel ih =>
    intro ids i k hf
    unfold batchChunksGo
    by_cases hi : i < ids.length
    · rw [if_pos hi]
      cases k with
      | zero =>
        rw [if_pos (by omega)]
        simp
      | succ k =>
        have h2 : i + BATCH_SIZE + BATCH_SIZE * k = i + BATCH_SIZE * (k + 1) := by
          unfold BATCH_SIZE
          ring
        rw [List.get?_cons_succ, ih ids (i + BATCH_SIZE) k (by unfold BATCH_SIZE at hf ⊢; omega),
          h2]
    · rw [if_neg hi, if_neg (by omega)]
      simp

/-! Claim C3. -/

/-- C3: for a non-empty ids list and capacity `BATCH_SIZE = 3`, the splitting
loop yields exactly ceil(N/3) chunks, chunk k is `ids.slice(3k, 3k+3)`
(hence at most 3 ids, and exactly 3 for every chunk but possibly the last),
and the concatenation of all chunks is the input list. -/
theorem claim3_theorem (ids : List Int) (_hne : ids ≠ []) :
    (batchChunks ids).length = (ids.length + BATCH_SIZE - 1) / BATCH_SIZE ∧
    (∀ k : Nat, (batchChunks ids).get? k =
      if BATCH_SIZE * k < ids.length then
        some ((ids.drop (BATCH_SIZE * k)).take BATCH_SIZE)
      else none) ∧
    (batchChunks ids).join = ids ∧
    (∀ c ∈ batchChunks ids, c.length ≤ BATCH_SIZE) ∧
    (∀ k : Nat, k + 1 < (batchChunks ids).length →
      ∃ c, (batchChunks ids).get? k = some c ∧ c.length = BATCH_SIZE) := by
  have hf : ids.length ≤ BATCH_SIZE * ids.length + 0 := by
    unfold BATCH_SIZE
    omega
  refine ⟨?_, ?_, ?_, ?_, ?_⟩
  · rw [batchChunks, batchChunksGo_length _ _ _ hf]
    unfold BATCH_SIZE
    omega
  · intro k
    rw [batchChunks, batchChunksGo_get? _ _ _ k hf]
    simp
  · rw [batchChunks, batchChunksGo_join _ _ _ hf]
    simp
  · intro c hc
    obtain ⟨k, hk⟩ := List.mem_iff_get?.1 hc
    rw [batchChunks, batchChunksGo_get? _ _ _ k hf] at hk
    by_cases hcond : 0 + BATCH_SIZE * k < ids.length
    · rw [if_pos hcond] at hk
      have hc2 : c = (ids.drop (0 + BATCH_SIZE * k)).take BATCH_SIZE := by
        exact (Option.some_inj.1 hk).symm
      rw [hc2]
      simp [List.length_take]
    · rw [if_neg hcond] at hk
      exact absurd hk (by simp)
  · intro k hk1
    have hcount := batchChunksGo_length ids.length ids 0 hf
    rw [batchChunks, hcount] at hk1
    have hlt : 0 + BATCH_SIZE * k < ids.length := by
      unfold BATCH_SIZE at hk1 ⊢
      omega
    refine ⟨(ids.drop (0 + BATCH_SIZE * k)).take BATCH_SIZE, ?_, ?_⟩
    · rw [batchChunks, batchChunksGo_get? _ _ _ k hf, if_pos hlt]
    · rw [List.length_take, List.length_drop]
      unfold BATCH_SIZE at hk1 ⊢
      omega

/-- C3 witness: splitting the four ids of the spec scenario yields the two
chunks `[1,2,3]` and `[4]` whose concatenation is the input. -/
theorem claim3_witness : (batchChunks [(1 : Int), 2, 3, 4]).join = [(1 : Int), 2, 3, 4] :=
  (claim3_theorem [(1 : Int), 2, 3, 4] (by decide)).2.2.1

/-! Claim C4. -/

/-- C4 counterexample: on the empty batch list every batch is vacuously
`completed` (the code's own `every` returns true), yet the aggregator
returns `yet_to_start`, so the claimed biconditional for `completed` fails. -/
theorem claim4_counterexample :
    (([] : List BatchRec).all fun b => b.status == BatchStatus.completed) = true ∧
    calculateOverallStatus [] ≠ BatchStatus.completed := by
  decide

/-- C4 (amended): for every non-empty batch list, the aggregator returns
`yet_to_start` iff every batch is `yet_to_start`, `completed` iff every batch
is `completed`, and `triggered` otherwise; consequently a batch list
containing a `failed` batch always reports `triggered` (never `completed`). -/
theorem claim4_theorem (batches : List BatchRec) (hne : batches ≠ []) :
    (calculateOverallStatus batches = BatchStatus.yet_to_start ↔
      ∀ b ∈ batches, b.status = BatchStatus.yet_to_start) ∧
    (calculateOverallStatus batches = BatchStatus.completed ↔
      ∀ b ∈ batches, b.status = BatchStatus.completed) ∧
    (calculateOverallStatus batches = BatchStatus.triggered ↔
      (¬ ∀ b ∈ batches, b.status = BatchStatus.yet_to_start) ∧
      (¬ ∀ b ∈ batches, b.status = BatchStatus.completed)) ∧
    ((∃ b ∈ batches, b.status = BatchStatus.failed) →
      calculateOverallStatus batches = BatchStatus.triggered) := by
  obtain ⟨b0, bs, rfl⟩ : ∃ b0 bs, batches = b0 :: bs := by
    cases batches with
    | nil => exact absurd rfl hne
    | cons b0 bs => exact ⟨b0, bs, rfl⟩
  have hemp : (b0 :: bs).isEmpty = false := rfl
  unfold calculateOverallStatus
  rw [hemp]
  simp only [Bool.false_eq_true, if_false]
  by_cases h1 : ∀ b ∈ b0 :: bs, b.status = BatchStatus.yet_to_start
  · rw [if_pos h1]
    refine ⟨⟨fun _ => h1, fun _ => rfl⟩, ?_, ?_, ?_⟩
    swap
    · constructor
      · intro h
        exact absurd h (by decide)
      · rintro ⟨hn, _⟩
        exact absurd h1 hn
    · constructor
      · intro h
        exact absurd h (by decide)
      · intro h2
        have hb1 := h1 b0 (List.mem_cons_self b0 bs)
        have hb2 := h2 b0 (List.mem_cons_self b0 bs)
        rw [hb1] at hb2
        exact absurd hb2 (by decide)
    · rintro ⟨b, hb, hf⟩
      have := h1 b hb
      rw [this] at hf
      exact absurd hf (by decide)
  · rw [if_neg h1]
    by_cases h2 : ∀ b ∈ b0 :: bs, b.status = BatchStatus.completed
    · rw [if_pos h2]
      refine ⟨?_, ⟨fun _ => h2, fun _ => rfl⟩, ?_, ?_⟩
      · constructor
        · intro h
          exact absurd h (by decide)
        · intro h3
          exact absurd h3 h1
      · constructor
        · intro h
          exact absurd h (by decide)
        · intro h3
          exact absurd h2 h3.2
      · rintro ⟨b, hb, hf⟩
        have := h2 b hb
        rw [this] at hf
        exact absurd hf (by decide)
    · rw [if_neg h2]
      refine ⟨?_, ?_, ?_, ?_⟩
      · constructor
        · intro h
          exact absurd h (by decide)
        · intro h3
          exact absurd h3 h1
      · constructor
        · intro h
          exact absurd h (by decide)
        · intro h3
          exact absurd h3 h2
      · exact ⟨fun _ => ⟨h1, h2⟩, fun _ => rfl⟩
      · intro _
        rfl

/-- C4 witness: the amended theorem applied to a two-batch list containing a
`failed` batch; it reports `triggered`. -/
theorem claim4_witness :
    calculateOverallStatus
      [⟨1, [1], BatchStatus.completed⟩, ⟨2, [2], BatchStatus.failed⟩] =
      BatchStatus.triggered := by
  have h := claim4_theorem
    [⟨1, [1], BatchStatus.completed⟩, ⟨2, [2], BatchStatus.failed⟩] (by decide)
  exact h.2.2.2 ⟨⟨2, [2], BatchStatus.failed⟩, by decide, rfl⟩

/-! Store and queue plumbing lemmas. -/

theorem setBatchStatus_priority (r : ReqRec) (bid : Nat) (st : BatchStatus) :
    (setBatchStatus r bid st).priority = r.priority := rfl

theorem setBatchStatus_createdAt (r : ReqRec) (bid : Nat) (st : BatchStatus) :
    (setBatchStatus r bid st).createdAt = r.createdAt := rfl

theorem setBatchStatus_original_ids (r : ReqRec) (bid : Nat) (st : BatchStatus) :
    (setBatchStatus r bid st).original_ids = r.original_ids := rfl

theorem setBatchStatus_map_batch_id (r : ReqRec) (bid : Nat) (st : BatchStatus) :
    (setBatchStatus r bid st).batches.map BatchRec.batch_id =
      r.batches.map BatchRec.batch_id := by
  unfold setBatchStatus
  rw [List.map_map]
  apply List.map_congr_left
  intro b _
  by_cases h : b.batch_id = bid <;> simp [h]

theorem setBatchStatus_map_ids (r : ReqRec) (bid : Nat) (st : BatchStatus) :
    (setBatchStatus r bid st).batches.map BatchRec.ids = r.batches.map BatchRec.ids := by
  unfold setBatchStatus
  rw [List.map_map]
  apply List.map_congr_left
  intro b _
  by_cases h : b.batch_id = bid <;> simp [h]

theorem mem_setBatchStatus {r : ReqRec} {bid : Nat} {st : BatchStatus} {b' : BatchRec}
    (h : b' ∈ (setBatchStatus r bid st).batches) :
    ∃ b ∈ r.batches, b' = if b.batch_id = bid then { b with status := st } else b := by
  unfold setBatchStatus at h
  obtain ⟨b, hb, hbe⟩ := List.mem_map.1 h
  exact ⟨b, hb, hbe.symm⟩

theorem setBatchStatus_mem {r : ReqRec} {bid : Nat} {st : BatchStatus} {b : BatchRec}
    (h : b ∈ r.batches) :
    (if b.batch_id = bid then { b with status := st } else b) ∈ (setBatchStatus r bid st).batches := by
  unfold setBatchStatus
  exact List.mem_map.2 ⟨b, h, rfl⟩

theorem lookup_updateBatch (store : List (Nat × ReqRec)) (rid bid : Nat)
    (st : BatchStatus) (k : Nat) :
    List.lookup k (updateBatch store rid bid st) =
      if k = rid then (List.lookup k store).map (fun r => setBatchStatus r bid st)
      else List.lookup k store := by
  induction store with
  | nil => by_cases h : k = rid <;> simp [updateBatch, h]
  | cons p t ih =>
    obtain ⟨a, r⟩ := p
    simp only [updateBatch, List.map_cons] at ih ⊢
    by_cases hp : a = rid
    · rw [if_pos (show (a, r).1 = rid from hp)]
      by_cases hk : k = a
      · subst hk
        subst hp
        simp [List.lookup_cons]
      · have hkr : k ≠ rid := fun hc => hk (hc.trans hp.symm)
        simp only [List.lookup_cons, beq_eq_false_iff_ne.2 hk]
        rw [ih, if_neg hkr]
    · rw [if_neg (show ¬ (a, r).1 = rid from hp)]
      by_cases hk : k = a
      · subst hk
        have hkr : k ≠ rid := hp
        simp [List.lookup_cons, if_neg hkr]
      · simp only [List.lookup_cons, beq_eq_false_iff_ne.2 hk]
        exact ih

theorem lookup_mem {store : List (Nat × ReqRec)} {k : Nat} {r : ReqRec}
    (h : List.lookup k store = some r) : (k, r) ∈ store := by
  induction store with
  | nil => simp at h
  | cons p t ih =>
    obtain ⟨a, v⟩ := p
    by_cases hk : k = a
    · subst hk
      simp [List.lookup_cons] at h
      rw [h]
      exact List.mem_cons_self _ _
    · simp only [List.lookup_cons, beq_eq_false_iff_ne.2 hk] at h
      exact List.mem_cons_of_mem _ (ih h)

theorem lookup_append_left {store l2 : List (Nat × ReqRec)} {k : Nat} {r : ReqRec}
    (h : List.lookup k store = some r) : List.lookup k (store ++ l2) = some r := by
  induction store with
  | nil => simp at h
  | cons p t ih =>
    obtain ⟨a, v⟩ := p
    rw [List.cons_append]
    by_cases hk : k = a
    · subst hk
      simp [List.lookup_cons] at h ⊢
      exact h
    · simp only [List.lookup_cons, beq_eq_false_iff_ne.2 hk] at h ⊢
      exact ih h

theorem lookup_append_fresh {store : List (Nat × ReqRec)} {k : Nat}
    (hfresh : ∀ p ∈ store, (p : Nat × ReqRec).1 ≠ k) (rec : ReqRec) (rid : Nat) :
    List.lookup k (store ++ [(rid, rec)]) = if k = rid then some rec else none := by
  induction store with
  | nil =>
    by_cases h : k = rid
    · simp [List.lookup_cons, h]
    · simp [List.lookup_cons, beq_eq_false_iff_ne.2 h, if_neg h]
  | cons p t ih =>
    rw [List.cons_append]
    obtain ⟨a, v⟩ := p
    have hne : k ≠ a := fun hc => hfresh (a, v) (List.mem_cons_self _ t) hc.symm
    simp only [List.lookup_cons, beq_eq_false_iff_ne.2 hne]
    exact ih fun q hq => hfresh q (List.mem_cons_of_mem _ hq)

theorem lookup_isSome_mem {store : List (Nat × ReqRec)} {k : Nat} {r : ReqRec}
    (h : List.lookup k store = some r) : ∃ p ∈ store, (p : Nat × ReqRec).1 = k :=
  ⟨(k, r), lookup_mem h, rfl⟩

/-- With per-request batch-id uniqueness, `find` by id recovers the batch. -/
theorem find?_batch_eq {batches : List BatchRec}
    (hnd : (batches.map BatchRec.batch_id).Nodup) {b : BatchRec} (hb : b ∈ batches) :
    batches.find? (fun x => x.batch_id == b.batch_id) = some b := by
  induction batches with
  | nil => simp at hb
  | cons c t ih =>
    rw [List.map_cons, List.nodup_cons] at hnd
    rcases List.mem_cons.1 hb with rfl | hbt
    · rw [List.find?_cons_of_pos _ (by simp)]
    · have hne : c.batch_id ≠ b.batch_id := by
        intro hc
        exact hnd.1 (hc ▸ List.mem_map_of_mem BatchRec.batch_id hbt)
      rw [List.find?_cons_of_neg _ (by simpa using hne)]
      exact ih hnd.2 hbt

theorem mem_foldl_enqueue : ∀ (jobs : List Job) (q : List Job) (a : Job),
    a ∈ jobs.foldl enqueue q ↔ a ∈ q ∨ a ∈ jobs := by
  intro jobs
  induction jobs with
  | nil => intro q a; simp
  | cons j js ih =>
    intro q a
    rw [List.foldl_cons, ih]
    have hm : a ∈ enqueue q j ↔ a = j ∨ a ∈ q := by
      rw [(enqueue_perm q j).mem_iff]
      exact List.mem_cons
    rw [hm]
    simp only [List.mem_cons]
    tauto

theorem foldl_enqueue_isHeap {q : List Job} (hh : IsHeap q) (jobs : List Job) :
    IsHeap (jobs.foldl enqueue q) := by
  induction jobs generalizing q with
  | nil => simpa using hh
  | cons j js ih => exact ih (enqueue_isHeap hh j)

theorem mapM_simulateApiCall (delays : Int → Nat) : ∀ ids : List Int,
    ids.mapM (fun i => simulateApiCall i (delays i)) =
      Except.ok (ids.map fun i => (i, "processed")) := by
  intro ids
  induction ids with
  | nil => rfl
  | cons a t ih =>
    rw [List.mapM_cons, List.map_cons]
    rw [show simulateApiCall a (delays a) = Except.ok (a, "processed") from rfl]
    rw [ih]
    rfl

/-- The error branch of `processSingleBatch` is unreachable: the outcome is
always `completed`. -/
theorem processSingleBatchOutcome_completed (delays : Int → Nat) (b : BatchRec) :
    processSingleBatchOutcome delays b = BatchStatus.completed := by
  unfold processSingleBatchOutcome
  rw [mapM_simulateApiCall]

/-! Characterisation of a `processQueue` invocation. -/

theorem PQUnchanged_refl (s : SysState) : PQUnchanged s s :=
  ⟨rfl, rfl, rfl, rfl, rfl, fun _ ha => ha, fun _ ha _ => ha⟩

theorem pq_step_transfer {s : SysState} {job0 : Job} {rest q : List Job} {s' : SysState}
    {now : Nat} (hq : s.queue = job0 :: rest)
    (hdq : dequeue (job0 :: rest) = (some job0, q)) (hstale : ¬ jobFresh s job0)
    (hres : PQUnchanged { s with queue := q } s' ∨ PQAdmit now { s with queue := q } s') :
    PQUnchanged s s' ∨ PQAdmit now s s' := by
  have hperm : q.Perm rest := by
    have h := dequeue_snd_perm job0 rest
    rw [hdq] at h
    exact h
  have hmemq : ∀ a ∈ q, a ∈ s.queue := by
    intro a ha
    rw [hq]
    exact List.mem_cons_of_mem _ (hperm.mem_iff.1 ha)
  have hmemq2 : ∀ a ∈ s.queue, a ≠ job0 → a ∈ q := by
    intro a ha hne
    rw [hq] at ha
    rcases List.mem_cons.1 ha with rfl | ha2
    · exact absurd rfl hne
    · exact hperm.mem_iff.2 ha2
  have hfr : ∀ a, jobFresh { s with queue := q } a ↔ jobFresh s a := fun a => Iff.rfl
  rcases hres with ⟨h1, h2, h3, h4, h5, h6, h7⟩ | ⟨job, b, hb1, hb2, hb3, hb4, hb5, hb6, hb7, hb8, hb9, hb10, hb11, hb12⟩
  · left
    refine ⟨h1, h2, h3, h4, h5, ?_, ?_⟩
    · intro a ha
      exact hmemq a (h6 a ha)
    · intro a ha hfresh
      have hne : a ≠ job0 := fun hc => hstale (hc ▸ hfresh)
      exact h7 a (hmemq2 a ha hne) ((hfr a).2 hfresh)
  · right
    refine ⟨job, b, hb1, hb2, hmemq job hb3, hb4, hb5, hb6, hb7, hb8, hb9, ?_, ?_, ?_⟩
    · intro a ha
      exact hmemq a (hb10 a ha)
    · intro a ha hfresh hne
      have hne0 : a ≠ job0 := fun hc => hstale (hc ▸ hfresh)
      exact hb11 a (hmemq2 a ha hne0) ((hfr a).2 hfresh) hne
    · intro a ha hfresh
      have hne0 : a ≠ job0 := fun hc => hstale (hc ▸ hfresh)
      exact hb12 a (hmemq2 a ha hne0) ((hfr a).2 hfresh)

theorem processQueueGo_spec : ∀ (fuel now : Nat) (s : SysState),
    s.queue.length ≤ fuel → IsHeap s.queue →
    PQUnchanged s (processQueueGo fuel now s) ∨ PQAdmit now s (processQueueGo fuel now s) := by
  intro fuel
  induction fuel with
  | zero =>
    intro now s hlen _
    exact Or.inl (PQUnchanged_refl s)
  | succ fuel ih =>
    intro now s hlen hh
    unfold processQueueGo
    by_cases hempty : s.queue.isEmpty
    · rw [if_pos hempty]
      exact Or.inl (PQUnchanged_refl s)
    · rw [if_neg hempty]
      by_cases hrate : now - s.lastProcessingStartTime < RATE_LIMIT_MS
      · rw [if_pos hrate]
        exact Or.inl (PQUnchanged_refl s)
      · rw [if_neg hrate]
        obtain ⟨job0, rest, hq⟩ : ∃ j r, s.queue = j :: r := by
          cases hsq : s.queue with
          | nil =>
            rw [hsq] at hempty
            simp at hempty
          | cons a r => exact ⟨a, r, rfl⟩
        rw [hq]
        rcases hdq : dequeue (job0 :: rest) with ⟨o, q⟩
        have ho : o = some job0 := by
          rw [← dequeue_fst job0 rest, hdq]
        subst ho
        dsimp only
        have hguard : s.lastProcessingStartTime + RATE_LIMIT_MS ≤ now := by
          unfold RATE_LIMIT_MS at hrate ⊢
          omega
        have hlen2 : q.length ≤ fuel := by
          have h1 : q.Perm rest := by
            have h := dequeue_snd_perm job0 rest
            rw [hdq] at h
            exact h
          have h2 := h1.length_eq
          rw [hq] at hlen
          simp only [List.length_cons] at hlen
          omega
        have hheap2 : IsHeap q := by
          have h := dequeue_isHeap (l := s.queue) hh
          rw [hq, hdq] at h
          exact h
        rcases hjb : (List.lookup job0.ingestionId s.store).bind
            (fun r => r.batches.find? fun b => b.batch_id == job0.batchId) with _ | b
        · -- batch not found: stale discard
          rw [hjb]
          dsimp only
          have hstale : ¬ jobFresh s job0 := by
            rintro ⟨b', hb', _⟩
            rw [show jobBatch s job0 = (List.lookup job0.ingestionId s.store).bind
              (fun r => r.batches.find? fun b => b.batch_id == job0.batchId) from rfl, hjb] at hb'
            exact absurd hb' (by simp)
          exact pq_step_transfer hq hdq hstale (ih now { s with queue := q } hlen2 hheap2)
        · rw [hjb]
          dsimp only
          by_cases hst : b.status = BatchStatus.yet_to_start
          · rw [if_pos hst]
            right
            refine ⟨job0, b, ?_, hst, ?_, hguard, rfl, rfl, rfl, rfl, rfl, ?_, ?_, ?_⟩
            · rw [show jobBatch s job0 = (List.lookup job0.ingestionId s.store).bind
                (fun r => r.batches.find? fun b => b.batch_id == job0.batchId) from rfl, hjb]
            · rw [hq]
              exact List.mem_cons_self _ _
            · intro a ha
              have h1 : q.Perm rest := by
                have h := dequeue_snd_perm job0 rest
                rw [hdq] at h
                exact h
              rw [hq]
              exact List.mem_cons_of_mem _ (h1.mem_iff.1 ha)
            · intro a ha _ hne
              have h1 : q.Perm rest := by
                have h := dequeue_snd_perm job0 rest
                rw [hdq] at h
                exact h
              rw [hq] at ha
              rcases List.mem_cons.1 ha with rfl | ha2
              · exact absurd rfl hne
              · exact h1.mem_iff.2 ha2
            · intro a ha _
              rw [hq] at ha hh
              rcases List.mem_cons.1 ha with rfl | ha2
              · exact le_refl _
              · exact isHeap_head_le hh a ha2
          · rw [if_neg hst]
            have hstale : ¬ jobFresh s job0 := by
              rintro ⟨b', hb', hb'st⟩
              rw [show jobBatch s job0 = (List.lookup job0.ingestionId s.store).bind
                (fun r => r.batches.find? fun b => b.batch_id == job0.batchId) from rfl, hjb] at hb'
              obtain rfl := Option.some_inj.1 hb'
              exact hst hb'st
            exact pq_step_transfer hq hdq hstale (ih now { s with queue := q } hlen2 hheap2)

/-- The two outcomes for a full `processQueue` call. -/
theorem processQueue_spec (now : Nat) (s : SysState) (hh : IsHeap s.queue) :
    PQUnchanged s (processQueue now s) ∨ PQAdmit now s (processQueue now s) :=
  processQueueGo_spec s.queue.length now s (le_refl _) hh

/-! Preservation of the system invariant. -/

theorem processQueueGo_isHeap : ∀ (fuel now : Nat) (s : SysState),
    IsHeap s.queue → IsHeap (processQueueGo fuel now s).queue := by
  intro fuel
  induction fuel with
  | zero =>
    intro now s hh
    exact hh
  | succ fuel ih =>
    intro now s hh
    unfold processQueueGo
    by_cases hempty : s.queue.isEmpty
    · rw [if_pos hempty]
      exact hh
    · rw [if_neg hempty]
      by_cases hrate : now - s.lastProcessingStartTime < RATE_LIMIT_MS
      · rw [if_pos hrate]
        exact hh
      · rw [if_neg hrate]
        obtain ⟨job0, rest, hq⟩ : ∃ j r, s.queue = j :: r := by
          cases hsq : s.queue with
          | nil =>
            rw [hsq] at hempty
            simp at hempty
          | cons a r => exact ⟨a, r, rfl⟩
        rw [hq]
        rcases hdq : dequeue (job0 :: rest) with ⟨o, q⟩
        have ho : o = some job0 := by
          rw [← dequeue_fst job0 rest, hdq]
        subst ho
        dsimp only
        have hheap2 : IsHeap q := by
          have h := dequeue_isHeap (l := s.queue) hh
          rw [hq, hdq] at h
          exact h
        rcases hjb : (List.lookup job0.ingestionId s.store).bind
            (fun r => r.batches.find? fun b => b.batch_id == job0.batchId) with _ | b
        · rw [hjb]
          dsimp only
          exact ih now { s with queue := q } hheap2
        · rw [hjb]
          dsimp only
          by_cases hst : b.status = BatchStatus.yet_to_start
          · rw [if_pos hst]
            exact hheap2
          · rw [if_neg hst]
            exact ih now { s with queue := q } hheap2

theorem processQueue_isHeap {s : SysState} (hh : IsHeap s.queue) (now : Nat) :
    IsHeap (processQueue now s).queue :=
  processQueueGo_isHeap s.queue.length now s hh

/-- The invariant is monotone in the clock bound. -/
theorem good_mono {s : SysState} {t t' : Nat} (hg : GoodAt s t) (ht : t ≤ t') :
    GoodAt s t' :=
  { hg with
    last_le := le_trans hg.last_le ht
    created_le := fun p hp => le_trans (hg.created_le p hp) ht }

/-- Members of a per-request batch list are determined by their ids. -/
theorem batch_id_inj {batches : List BatchRec}
    (hnd : (batches.map BatchRec.batch_id).Nodup) {x y : BatchRec}
    (hx : x ∈ batches) (hy : y ∈ batches) (h : x.batch_id = y.batch_id) : x = y :=
  List.inj_on_of_nodup_map hnd hx hy h

theorem jobFresh_of_yts {s : SysState} {rid : Nat} {r : ReqRec} {b : BatchRec}
    (hl : List.lookup rid s.store = some r)
    (hnd : (r.batches.map BatchRec.batch_id).Nodup)
    (hb : b ∈ r.batches) (hst : b.status = BatchStatus.yet_to_start) :
    jobFresh s ⟨rid, b.batch_id, r.priority, r.createdAt⟩ := by
  refine ⟨b, ?_, hst⟩
  unfold jobBatch
  simp only [hl, Option.bind_some]
  exact find?_batch_eq hnd hb

theorem good_of_PQUnchanged {s s' : SysState} {t now : Nat}
    (hg : GoodAt s t) (ht : t ≤ now) (hhq : IsHeap s'.queue)
    (hu : PQUnchanged s s') : GoodAt s' now := by
  obtain ⟨h1, h2, h3, h4, h5, h6, h7⟩ := hu
  refine
    { heap := hhq
      last_le := by rw [h2]; exact le_trans hg.last_le ht
      adm_chain := by rw [h3]; exact hg.adm_chain
      adm_last := by rw [h3, h2]; exact hg.adm_last
      created_le := by
        rw [h1]
        exact fun p hp => le_trans (hg.created_le p hp) ht
      rid_lt := by rw [h1, h5]; exact hg.rid_lt
      bid_lt := by rw [h1, h5]; exact hg.bid_lt
      bids_nodup := by rw [h1]; exact hg.bids_nodup
      queue_wf := ?_
      yts_queue := ?_
      adm_rec := by rw [h1, h3]; exact hg.adm_rec
      adm_rid_lt := by rw [h3, h5]; exact hg.adm_rid_lt
      inflight_wf := by rw [h4, h1]; exact hg.inflight_wf
      inflight_nodup := by rw [h4]; exact hg.inflight_nodup
      no_failed := by rw [h1]; exact hg.no_failed
      batches_chunks := by rw [h1]; exact hg.batches_chunks
      fifo := ?_ }
  · intro j hj
    rw [h1]
    exact hg.queue_wf j (h6 j hj)
  · intro rid r hl b hb hst
    rw [h1] at hl
    have hjob := hg.yts_queue rid r hl b hb hst
    have hnd := hg.bids_nodup (rid, r) (lookup_mem hl)
    exact h7 _ hjob (jobFresh_of_yts hl hnd hb hst)
  · intro ridA rA ridB rB hA hB hpr hct i e hi he b hb
    rw [h1] at hA hB
    rw [h3] at hi
    obtain ⟨j, hj1, e2, hj2, hj3, hj4⟩ := hg.fifo ridA rA ridB rB hA hB hpr hct i e hi he b hb
    exact ⟨j, hj1, e2, by rw [h3]; exact hj2, hj3, hj4⟩

theorem mem_setBatchStatus_corr {r : ReqRec} {bid : Nat} {st : BatchStatus} {b' : BatchRec}
    (h : b' ∈ (setBatchStatus r bid st).batches) :
    ∃ b0 ∈ r.batches, b0.batch_id = b'.batch_id := by
  obtain ⟨b0, hb0, hite⟩ := mem_setBatchStatus h
  refine ⟨b0, hb0, ?_⟩
  by_cases hc : b0.batch_id = bid
  · rw [if_pos hc] at hite
    rw [hite]
  · rw [if_neg hc] at hite
    rw [hite]

theorem good_of_PQAdmit {s s' : SysState} {t now : Nat}
    (hg : GoodAt s t) (ht : t ≤ now) (hhq : IsHeap s'.queue)
    (ha : PQAdmit now s s') : GoodAt s' now := by
  obtain ⟨job, b, hjb, hst, hjq, hguard, hstore, hlast, hadm, hinf, hnext, hsub, hkeep, hmin⟩ := ha
  obtain ⟨rstar, hlook, hfind⟩ : ∃ r, List.lookup job.ingestionId s.store = some r ∧
      r.batches.find? (fun x => x.batch_id == job.batchId) = some b := by
    unfold jobBatch at hjb
    exact Option.bind_eq_some.1 hjb
  have hbmem : b ∈ rstar.batches := List.mem_of_find?_eq_some hfind
  have hbid : b.batch_id = job.batchId := by
    have h := List.find?_some hfind
    simpa using h
  have hndstar := hg.bids_nodup (job.ingestionId, rstar) (lookup_mem hlook)
  have hlup : ∀ k, List.lookup k s'.store =
      if k = job.ingestionId then
        (List.lookup k s.store).map (fun r => setBatchStatus r job.batchId BatchStatus.triggered)
      else List.lookup k s.store := by
    intro k
    rw [hstore]
    exact lookup_updateBatch s.store job.ingestionId job.batchId BatchStatus.triggered k
  have hrel : ∀ {k : Nat} {r' : ReqRec}, List.lookup k s'.store = some r' →
      ∃ r, List.lookup k s.store = some r ∧ r'.priority = r.priority ∧
        r'.createdAt = r.createdAt ∧ r'.original_ids = r.original_ids ∧
        (∀ bb ∈ r'.batches, ∃ b0 ∈ r.batches, b0.batch_id = bb.batch_id) := by
    intro k r' h
    rw [hlup] at h
    by_cases hk : k = job.ingestionId
    · rw [if_pos hk] at h
      obtain ⟨r, hr, hr2⟩ := Option.map_eq_some'.1 h
      subst hr2
      exact ⟨r, hr, rfl, rfl, rfl, fun bb hbb => mem_setBatchStatus_corr hbb⟩
    · rw [if_neg hk] at h
      exact ⟨r', h, rfl, rfl, rfl, fun bb hbb => ⟨bb, hbb, rfl⟩⟩
  have hmemstore : ∀ p ∈ s'.store, ∃ p0 ∈ s.store, (p : Nat × ReqRec).1 = (p0 : Nat × ReqRec).1 ∧
      (p.2 = p0.2 ∨ p.2 = setBatchStatus p0.2 job.batchId BatchStatus.triggered) := by
    intro p hp
    rw [hstore] at hp
    obtain ⟨p0, hp0, hpe⟩ := List.mem_map.1 hp
    by_cases hc : p0.1 = job.ingestionId
    · rw [if_pos hc] at hpe
      exact ⟨p0, hp0, by rw [← hpe], Or.inr (by rw [← hpe])⟩
    · rw [if_neg hc] at hpe
      exact ⟨p0, hp0, by rw [← hpe], Or.inl (by rw [← hpe])⟩
  refine
    { heap := hhq
      last_le := by rw [hlast]
      adm_chain := ?_
      adm_last := ?_
      created_le := ?_
      rid_lt := ?_
      bid_lt := ?_
      bids_nodup := ?_
      queue_wf := ?_
      yts_queue := ?_
      adm_rec := ?_
      adm_rid_lt := ?_
      inflight_wf := ?_
      inflight_nodup := ?_
      no_failed := ?_
      batches_chunks := ?_
      fifo := ?_ }
  · -- adm_chain
    rw [hadm]
    refine List.Chain'.append hg.adm_chain (List.chain'_singleton _) ?_
    intro x hx y hy
    simp only [List.head?_cons, Option.mem_def, Option.some_inj] at hy
    subst hy
    rcases hg.adm_last with ⟨hemp, _⟩ | ⟨e0, he0, he0t⟩
    · rw [hemp] at hx
      simp at hx
    · rw [he0] at hx
      simp only [Option.mem_def, Option.some_inj] at hx
      subst hx
      rw [he0t]
      exact hguard
  · -- adm_last
    right
    refine ⟨(now, job.ingestionId, job.batchId), ?_, by rw [hlast]⟩
    rw [hadm]
    exact List.getLast?_concat _
  · -- created_le
    intro p hp
    obtain ⟨p0, hp0, _, hpe⟩ := hmemstore p hp
    have h0 := le_trans (hg.created_le p0 hp0) ht
    rcases hpe with h | h <;> rw [h]
    · exact h0
    · rw [setBatchStatus_createdAt]
      exact h0
  · -- rid_lt
    intro p hp
    obtain ⟨p0, hp0, hk, _⟩ := hmemstore p hp
    rw [hk, hnext]
    exact hg.rid_lt p0 hp0
  · -- bid_lt
    intro p hp bb hbb
    obtain ⟨p0, hp0, _, hpe⟩ := hmemstore p hp
    rw [hnext]
    rcases hpe with h | h
    · rw [h] at hbb
      exact hg.bid_lt p0 hp0 bb hbb
    · rw [h] at hbb
      obtain ⟨b0, hb0, hb0id⟩ := mem_setBatchStatus_corr hbb
      rw [← hb0id]
      exact hg.bid_lt p0 hp0 b0 hb0
  · -- bids_nodup
    intro p hp
    obtain ⟨p0, hp0, _, hpe⟩ := hmemstore p hp
    rcases hpe with h | h <;> rw [h]
    · exact hg.bids_nodup p0 hp0
    · rw [setBatchStatus_map_batch_id]
      exact hg.bids_nodup p0 hp0
  · -- queue_wf
    intro j hj
    obtain ⟨r, hr, hp2, hc2, b0, hb0, hbid0⟩ := hg.queue_wf j (hsub j hj)
    rw [hlup]
    by_cases hk : j.ingestionId = job.ingestionId
    · rw [if_pos hk, hr]
      refine ⟨setBatchStatus r job.batchId BatchStatus.triggered, rfl, hp2, hc2, ?_⟩
      refine ⟨(if b0.batch_id = job.batchId then
        { b0 with status := BatchStatus.triggered } else b0), setBatchStatus_mem hb0, ?_⟩
      by_cases hc : b0.batch_id = job.batchId <;> simp [hc]
      · rw [← hbid0, hc]
      · exact hbid0
    · rw [if_neg hk]
      exact ⟨r, hr, hp2, hc2, b0, hb0, hbid0⟩
  · -- yts_queue
    intro rid r' hl' b' hb' hst'
    rw [hlup] at hl'
    by_cases hk : rid = job.ingestionId
    · subst hk
      rw [if_pos rfl, hlook] at hl'
      have hl2 : setBatchStatus rstar job.batchId BatchStatus.triggered = r' :=
        Option.some_inj.1 hl'
      subst hl2
      obtain ⟨b0, hb0, hite⟩ := mem_setBatchStatus hb'
      by_cases hc : b0.batch_id = job.batchId
      · rw [if_pos hc] at hite
        rw [hite] at hst'
        exact absurd hst' (by simp)
      · rw [if_neg hc] at hite
        subst hite
        have hjob0 := hg.yts_queue job.ingestionId rstar hlook b' hb0 hst'
        have hfresh := jobFresh_of_yts hlook hndstar hb0 hst'
        have hne : (⟨job.ingestionId, b'.batch_id, rstar.priority, rstar.createdAt⟩ : Job) ≠ job := by
          intro hcon
          apply hc
          have : b'.batch_id = job.batchId := congrArg Job.batchId hcon
          exact this
        have h2 := hkeep _ hjob0 hfresh hne
        rw [setBatchStatus_priority, setBatchStatus_createdAt]
        exact h2
    · rw [if_neg hk] at hl'
      have hjob0 := hg.yts_queue rid r' hl' b' hb' hst'
      have hnd := hg.bids_nodup (rid, r') (lookup_mem hl')
      have hfresh := jobFresh_of_yts hl' hnd hb' hst'
      have hne : (⟨rid, b'.batch_id, r'.priority, r'.createdAt⟩ : Job) ≠ job := by
        intro hcon
        exact hk (congrArg Job.ingestionId hcon)
      exact hkeep _ hjob0 hfresh hne
  · -- adm_rec
    intro rid r' hl' b' hb' hnst
    rw [hadm]
    rw [hlup] at hl'
    by_cases hk : rid = job.ingestionId
    · subst hk
      rw [if_pos rfl, hlook] at hl'
      have hl2 : setBatchStatus rstar job.batchId BatchStatus.triggered = r' :=
        Option.some_inj.1 hl'
      subst hl2
      obtain ⟨b0, hb0, hite⟩ := mem_setBatchStatus hb'
      by_cases hc : b0.batch_id = job.batchId
      · refine ⟨(now, job.ingestionId, job.batchId), List.mem_append_right _ (by simp), rfl, ?_⟩
        rw [if_pos hc] at hite
        rw [hite]
        exact hc.symm
      · rw [if_neg hc] at hite
        subst hite
        obtain ⟨e, he, hef⟩ := hg.adm_rec job.ingestionId rstar hlook b' hb0 hnst
        exact ⟨e, List.mem_append_left _ he, hef⟩
    · rw [if_neg hk] at hl'
      obtain ⟨e, he, hef⟩ := hg.adm_rec rid r' hl' b' hb' hnst
      exact ⟨e, List.mem_append_left _ he, hef⟩
  · -- adm_rid_lt
    intro e he
    rw [hadm] at he
    rw [hnext]
    rcases List.mem_append.1 he with he | he
    · exact hg.adm_rid_lt e he
    · simp only [List.mem_singleton] at he
      subst he
      obtain ⟨r, hr, _⟩ := hg.queue_wf job hjq
      exact hg.rid_lt (job.ingestionId, r) (lookup_mem hr)
  · -- inflight_wf
    intro q hq
    rw [hinf] at hq
    rcases List.mem_cons.1 hq with rfl | hq2
    · refine ⟨setBatchStatus rstar job.batchId BatchStatus.triggered,
        (if b.batch_id = job.batchId then { b with status := BatchStatus.triggered } else b),
        ?_, setBatchStatus_mem hbmem, ?_, ?_⟩
      · rw [hlup, if_pos rfl, hlook]
        rfl
      · rw [if_pos hbid]
        exact hbid
      · rw [if_pos hbid]
    · obtain ⟨r0, b0, hr0, hb0, hb0id, hb0st⟩ := hg.inflight_wf q hq2
      rw [hlup]
      by_cases hk : q.1 = job.ingestionId
      · rw [hk] at hr0 ⊢
        rw [hlook] at hr0
        have hrr : rstar = r0 := Option.some_inj.1 hr0
        subst hrr
        have hbne : b0.batch_id ≠ job.batchId := by
          intro hcon
          have hbb : b0 = b := batch_id_inj hndstar hb0 hbmem (hcon.trans hbid.symm)
          rw [hbb, hst] at hb0st
          exact absurd hb0st (by decide)
        rw [if_pos rfl, hlook]
        refine ⟨setBatchStatus rstar job.batchId BatchStatus.triggered, b0, rfl, ?_, hb0id, hb0st⟩
        have h2 := @setBatchStatus_mem rstar job.batchId BatchStatus.triggered b0 hb0
        rw [if_neg hbne] at h2
        exact h2
      · rw [if_neg hk]
        exact ⟨r0, b0, hr0, hb0, hb0id, hb0st⟩
  · -- inflight_nodup
    rw [hinf]
    refine List.Nodup.cons ?_ hg.inflight_nodup
    intro hcon
    obtain ⟨r0, b0, hr0, hb0, hb0id, hb0st⟩ := hg.inflight_wf _ hcon
    rw [hlook] at hr0
    obtain rfl := Option.some_inj.1 hr0
    have : b0 = b := batch_id_inj hndstar hb0 hbmem (hb0id.trans hbid.symm)
    rw [this, hst] at hb0st
    exact absurd hb0st (by decide)
  · -- no_failed
    intro p hp bb hbb
    obtain ⟨p0, hp0, _, hpe⟩ := hmemstore p hp
    rcases hpe with h | h
    · rw [h] at hbb
      exact hg.no_failed p0 hp0 bb hbb
    · rw [h] at hbb
      obtain ⟨b0, hb0, hite⟩ := mem_setBatchStatus hbb
      by_cases hc : b0.batch_id = job.batchId
      · rw [if_pos hc] at hite
        rw [hite]
        simp
      · rw [if_neg hc] at hite
        rw [hite]
        exact hg.no_failed p0 hp0 b0 hb0
  · -- batches_chunks
    intro p hp
    obtain ⟨p0, hp0, _, hpe⟩ := hmemstore p hp
    rcases hpe with h | h <;> rw [h]
    · exact hg.batches_chunks p0 hp0
    · rw [setBatchStatus_map_ids, setBatchStatus_original_ids]
      exact hg.batches_chunks p0 hp0
  · -- fifo
    intro ridA rA' ridB rB' hA' hB' hpr hct i e hi he b' hb'
    obtain ⟨rA, hAl, hApr, hAc, _, hAb⟩ := hrel hA'
    obtain ⟨rB, hBl, hBpr, hBc, _, _⟩ := hrel hB'
    rw [hadm] at hi
    by_cases hilt : i < s.admissions.length
    · rw [List.get?_append hilt] at hi
      obtain ⟨b0, hb0, hb0id⟩ := hAb b' hb'
      obtain ⟨j, hj1, e2, hj2, hj3, hj4⟩ := hg.fifo ridA rA ridB rB hAl hBl
        (by rw [← hApr, ← hBpr]; exact hpr) (by rw [← hAc, ← hBc]; exact hct) i e hi he b0 hb0
      refine ⟨j, hj1, e2, ?_, hj3, by rw [hj4]; exact hb0id⟩
      rw [hadm, List.get?_append (lt_trans hj1 hilt)]
      exact hj2
    · have hlen : i = s.admissions.length := by
        by_contra hcon
        have h2 : s.admissions.length + 1 ≤ i := by omega
        rw [List.get?_eq_none.2 (by simpa using h2)] at hi
        exact absurd hi (by simp)
      subst hlen
      rw [List.get?_concat_length] at hi
      obtain rfl := Option.some_inj.1 hi
      have hjobB : job.ingestionId = ridB := he
      obtain ⟨b0, hb0, hb0id⟩ := hAb b' hb'
      by_cases hb0st : b0.status = BatchStatus.yet_to_start
      · exfalso
        have hjobA := hg.yts_queue ridA rA hAl b0 hb0 hb0st
        have hndA := hg.bids_nodup (ridA, rA) (lookup_mem hAl)
        have hfreshA := jobFresh_of_yts hAl hndA hb0 hb0st
        have hminA := hmin _ hjobA hfreshA
        obtain ⟨rJ, hrJ, hpJ, hcJ, _⟩ := hg.queue_wf job hjq
        rw [hjobB, hBl] at hrJ
        obtain rfl := Option.some_inj.1 hrJ
        have hlt : scaledKey (⟨ridA, b0.batch_id, rA.priority, rA.createdAt⟩ : Job) <
            scaledKey job := by
          apply scaledKey_lt_same_priority
          · show rA.priority = job.priority
            rw [hpJ, ← hBpr, ← hpr, hApr]
          · show rA.createdAt < job.createdAt
            rw [hcJ, ← hBc]
            rw [hAc] at hct
            exact hct
        omega
      · obtain ⟨e2, he2, he2f⟩ := hg.adm_rec ridA rA hAl b0 hb0 hb0st
        obtain ⟨j, hj⟩ := List.mem_iff_get?.1 he2
        have hjlt : j < s.admissions.length := by
          rcases List.get?_eq_some.1 hj with ⟨h, _⟩
          exact h
        refine ⟨j, hjlt, e2, ?_, he2f.1, by rw [he2f.2]; exact hb0id⟩
        rw [hadm, List.get?_append hjlt]
        exact hj

theorem lookup_updateBatch_rel {store : List (Nat × ReqRec)} {rid0 bid0 : Nat}
    {st : BatchStatus} {k : Nat} {r' : ReqRec}
    (h : List.lookup k (updateBatch store rid0 bid0 st) = some r') :
    ∃ r, List.lookup k store = some r ∧ r'.priority = r.priority ∧
      r'.createdAt = r.createdAt ∧ r'.original_ids = r.original_ids ∧
      r'.batches.map BatchRec.batch_id = r.batches.map BatchRec.batch_id ∧
      (∀ bb ∈ r'.batches, ∃ b0 ∈ r.batches, b0.batch_id = bb.batch_id) := by
  rw [lookup_updateBatch] at h
  by_cases hk : k = rid0
  · rw [if_pos hk] at h
    obtain ⟨r, hr, hr2⟩ := Option.map_eq_some'.1 h
    subst hr2
    exact ⟨r, hr, rfl, rfl, rfl, setBatchStatus_map_batch_id r bid0 st,
      fun bb hbb => mem_setBatchStatus_corr hbb⟩
  · rw [if_neg hk] at h
    exact ⟨r', h, rfl, rfl, rfl, rfl, fun bb hbb => ⟨bb, hbb, rfl⟩⟩

theorem mem_updateBatch {store : List (Nat × ReqRec)} {rid0 bid0 : Nat} {st : BatchStatus}
    {p : Nat × ReqRec} (hp : p ∈ updateBatch store rid0 bid0 st) :
    ∃ p0 ∈ store, (p : Nat × ReqRec).1 = (p0 : Nat × ReqRec).1 ∧
      (p.2 = p0.2 ∨ p.2 = setBatchStatus p0.2 bid0 st) := by
  unfold updateBatch at hp
  obtain ⟨p0, hp0, hpe⟩ := List.mem_map.1 hp
  by_cases hc : p0.1 = rid0
  · rw [if_pos hc] at hpe
    exact ⟨p0, hp0, by rw [← hpe], Or.inr (by rw [← hpe])⟩
  · rw [if_neg hc] at hpe
    exact ⟨p0, hp0, by rw [← hpe], Or.inl (by rw [← hpe])⟩

theorem lookup_updateBatch_fwd {store : List (Nat × ReqRec)} {rid0 bid0 : Nat}
    {st : BatchStatus} {k : Nat} {r : ReqRec} (h : List.lookup k store = some r) :
    ∃ r', List.lookup k (updateBatch store rid0 bid0 st) = some r' ∧
      r'.priority = r.priority ∧ r'.createdAt = r.createdAt ∧
      (∀ b0 ∈ r.batches, ∃ bb ∈ r'.batches, bb.batch_id = b0.batch_id) := by
  rw [lookup_updateBatch]
  by_cases hk : k = rid0
  · rw [if_pos hk, h]
    refine ⟨setBatchStatus r bid0 st, rfl, rfl, rfl, ?_⟩
    intro b0 hb0
    refine ⟨(if b0.batch_id = bid0 then { b0 with status := st } else b0),
      setBatchStatus_mem hb0, ?_⟩
    by_cases hc : b0.batch_id = bid0
    · rw [if_pos hc]
    · rw [if_neg hc]
  · rw [if_neg hk]
    exact ⟨r, h, rfl, rfl, fun b0 hb0 => ⟨b0, hb0, rfl⟩⟩

theorem good_completeBatch {s : SysState} {t : Nat} (hg : GoodAt s t)
    (delays : Int → Nat) {rid bid : Nat} (hmem : (rid, bid) ∈ s.inflight) :
    GoodAt (completeBatch delays rid bid s) t := by
  obtain ⟨r, b, hr, hb, hbid, hbst⟩ := hg.inflight_wf (rid, bid) hmem
  have hnd := hg.bids_nodup (rid, r) (lookup_mem hr)
  have hfind : r.batches.find? (fun x => x.batch_id == bid) = some b := by
    have h := find?_batch_eq hnd hb
    rw [hbid] at h
    exact h
  have hsc : (List.lookup rid s.store).bind
      (fun rr => rr.batches.find? fun x => x.batch_id == bid) = some b := by
    rw [hr]
    exact hfind
  unfold completeBatch
  rw [hsc]
  dsimp only
  rw [processSingleBatchOutcome_completed]
  refine
    { heap := hg.heap
      last_le := hg.last_le
      adm_chain := hg.adm_chain
      adm_last := hg.adm_last
      created_le := ?_
      rid_lt := ?_
      bid_lt := ?_
      bids_nodup := ?_
      queue_wf := ?_
      yts_queue := ?_
      adm_rec := ?_
      adm_rid_lt := hg.adm_rid_lt
      inflight_wf := ?_
      inflight_nodup := List.Nodup.erase _ hg.inflight_nodup
      no_failed := ?_
      batches_chunks := ?_
      fifo := ?_ }
  · -- created_le
    intro p hp
    obtain ⟨p0, hp0, _, hpe⟩ := mem_updateBatch hp
    have h0 := hg.created_le p0 hp0
    rcases hpe with h | h <;> rw [h]
    · exact h0
    · rw [setBatchStatus_createdAt]
      exact h0
  · -- rid_lt
    intro p hp
    obtain ⟨p0, hp0, hk, _⟩ := mem_updateBatch hp
    rw [hk]
    exact hg.rid_lt p0 hp0
  · -- bid_lt
    intro p hp bb hbb
    obtain ⟨p0, hp0, _, hpe⟩ := mem_updateBatch hp
    rcases hpe with h | h
    · rw [h] at hbb
      exact hg.bid_lt p0 hp0 bb hbb
    · rw [h] at hbb
      obtain ⟨b0, hb0, hb0id⟩ := mem_setBatchStatus_corr hbb
      rw [← hb0id]
      exact hg.bid_lt p0 hp0 b0 hb0
  · -- bids_nodup
    intro p hp
    obtain ⟨p0, hp0, _, hpe⟩ := mem_updateBatch hp
    rcases hpe with h | h <;> rw [h]
    · exact hg.bids_nodup p0 hp0
    · rw [setBatchStatus_map_batch_id]
      exact hg.bids_nodup p0 hp0
  · -- queue_wf
    intro j hj
    obtain ⟨r0, hr0, hp2, hc2, b0, hb0, hbid0⟩ := hg.queue_wf j hj
    obtain ⟨r0', hr0', hp2', hc2', hbb⟩ :=
      @lookup_updateBatch_fwd s.store rid bid BatchStatus.completed j.ingestionId r0 hr0
    obtain ⟨bb, hbbm, hbbid⟩ := hbb b0 hb0
    exact ⟨r0', hr0', by rw [hp2', hp2], by rw [hc2', hc2], bb, hbbm, hbbid.trans hbid0⟩
  · -- yts_queue
    intro rid0 r' hl' b' hb' hst'
    rw [lookup_updateBatch] at hl'
    by_cases hk : rid0 = rid
    · subst hk
      rw [if_pos rfl, hr] at hl'
      have hl2 : setBatchStatus r bid BatchStatus.completed = r' := Option.some_inj.1 hl'
      subst hl2
      obtain ⟨b0, hb0, hite⟩ := mem_setBatchStatus hb'
      by_cases hc : b0.batch_id = bid
      · rw [if_pos hc] at hite
        rw [hite] at hst'
        exact absurd hst' (by simp)
      · rw [if_neg hc] at hite
        subst hite
        rw [setBatchStatus_priority, setBatchStatus_createdAt]
        exact hg.yts_queue rid0 r hr b' hb0 hst'
    · rw [if_neg hk] at hl'
      exact hg.yts_queue rid0 r' hl' b' hb' hst'
  · -- adm_rec
    intro rid0 r' hl' b' hb' hnst
    rw [lookup_updateBatch] at hl'
    by_cases hk : rid0 = rid
    · subst hk
      rw [if_pos rfl, hr] at hl'
      have hl2 : setBatchStatus r bid BatchStatus.completed = r' := Option.some_inj.1 hl'
      subst hl2
      obtain ⟨b0, hb0, hite⟩ := mem_setBatchStatus hb'
      by_cases hc : b0.batch_id = bid
      · have hbb : b0 = b := batch_id_inj hnd hb0 hb (hc.trans hbid.symm)
        obtain ⟨e, he, he1, he2⟩ := hg.adm_rec rid0 r hr b0 hb0
          (by rw [hbb, hbst]; simp)
        refine ⟨e, he, he1, ?_⟩
        rw [if_pos hc] at hite
        rw [hite]
        exact he2
      · rw [if_neg hc] at hite
        subst hite
        exact hg.adm_rec rid0 r hr b' hb0 hnst
    · rw [if_neg hk] at hl'
      exact hg.adm_rec rid0 r' hl' b' hb' hnst
  · -- inflight_wf
    intro q hq
    have hq2 := List.mem_of_mem_erase hq
    have hqne : q ≠ (rid, bid) :=
      ((List.Nodup.mem_erase_iff hg.inflight_nodup).1 hq).1
    obtain ⟨r0, b0, hr0, hb0, hb0id, hb0st⟩ := hg.inflight_wf q hq2
    rw [lookup_updateBatch]
    by_cases hk : q.1 = rid
    · rw [hk] at hr0 ⊢
      rw [hr] at hr0
      have hrr : r = r0 := Option.some_inj.1 hr0
      subst hrr
      have hbne : b0.batch_id ≠ bid := by
        intro hcon
        apply hqne
        have hq2eq : q.2 = bid := by rw [← hb0id, hcon]
        exact Prod.ext hk hq2eq
      rw [if_pos rfl, hr]
      refine ⟨setBatchStatus r bid BatchStatus.completed, b0, rfl, ?_, hb0id, hb0st⟩
      have h2 := @setBatchStatus_mem r bid BatchStatus.completed b0 hb0
      rw [if_neg hbne] at h2
      exact h2
    · rw [if_neg hk]
      exact ⟨r0, b0, hr0, hb0, hb0id, hb0st⟩
  · -- no_failed
    intro p hp bb hbb
    obtain ⟨p0, hp0, _, hpe⟩ := mem_updateBatch hp
    rcases hpe with h | h
    · rw [h] at hbb
      exact hg.no_failed p0 hp0 bb hbb
    · rw [h] at hbb
      obtain ⟨b0, hb0, hite⟩ := mem_setBatchStatus hbb
      by_cases hc : b0.batch_id = bid
      · rw [if_pos hc] at hite
        rw [hite]
        simp
      · rw [if_neg hc] at hite
        rw [hite]
        exact hg.no_failed p0 hp0 b0 hb0
  · -- batches_chunks
    intro p hp
    obtain ⟨p0, hp0, _, hpe⟩ := mem_updateBatch hp
    rcases hpe with h | h <;> rw [h]
    · exact hg.batches_chunks p0 hp0
    · rw [setBatchStatus_map_ids, setBatchStatus_original_ids]
      exact hg.batches_chunks p0 hp0
  · -- fifo
    intro ridA rA' ridB rB' hA' hB' hpr hct i e hi he b' hb'
    obtain ⟨rA, hAl, hApr, hAc, _, _, hAb⟩ := lookup_updateBatch_rel hA'
    obtain ⟨rB, hBl, hBpr, hBc, _, _, _⟩ := lookup_updateBatch_rel hB'
    obtain ⟨b0, hb0, hb0id⟩ := hAb b' hb'
    obtain ⟨j, hj1, e2, hj2, hj3, hj4⟩ := hg.fifo ridA rA ridB rB hAl hBl
      (by rw [← hApr, ← hBpr]; exact hpr) (by rw [← hAc, ← hBc]; exact hct) i e hi he b0 hb0
    exact ⟨j, hj1, e2, hj2, hj3, by rw [hj4]; exact hb0id⟩

/-- A `processQueue` run preserves the invariant, moving the clock bound to
the invocation time. -/
theorem good_processQueue {s : SysState} {t now : Nat} (hg : GoodAt s t) (ht : t ≤ now) :
    GoodAt (processQueue now s) now := by
  have hhq := processQueue_isHeap hg.heap now
  rcases processQueue_spec now s hg.heap with h | h
  · exact good_of_PQUnchanged hg ht hhq h
  · exact good_of_PQAdmit hg ht hhq h

/-! Facts about `List.enumFrom`, used for the freshly minted batch ids. -/

theorem enumFrom_map_snd : ∀ {α : Type} (n : Nat) (l : List α),
    (l.enumFrom n).map Prod.snd = l := by
  intro α n l
  induction l generalizing n with
  | nil => rfl
  | cons a tl ih =>
    rw [List.enumFrom_cons, List.map_cons, ih]

theorem mem_enumFrom_bounds : ∀ {α : Type} (l : List α) (n : Nat) (p : Nat × α),
    p ∈ l.enumFrom n → n ≤ p.1 ∧ p.1 < n + l.length ∧ p.2 ∈ l := by
  intro α l
  induction l with
  | nil =>
    intro n p hp
    simp [List.enumFrom] at hp
  | cons a tl ih =>
    intro n p hp
    rw [List.enumFrom_cons] at hp
    rcases List.mem_cons.1 hp with rfl | hp2
    · exact ⟨le_refl _, by simp, List.mem_cons_self _ _⟩
    · obtain ⟨h1, h2, h3⟩ := ih (n + 1) p hp2
      exact ⟨by omega, by simp only [List.length_cons]; omega, List.mem_cons_of_mem _ h3⟩

theorem enumFrom_map_fst : ∀ {α : Type} (n : Nat) (l : List α),
    (l.enumFrom n).map Prod.fst = List.range' n l.length := by
  intro α n l
  induction l generalizing n with
  | nil => rfl
  | cons a tl ih =>
    rw [List.enumFrom_cons, List.map_cons, ih]
    rfl

theorem lookup_append_cases {l1 l2 : List (Nat × ReqRec)} {k : Nat} {r : ReqRec}
    (h : List.lookup k (l1 ++ l2) = some r) :
    List.lookup k l1 = some r ∨ (List.lookup k l1 = none ∧ List.lookup k l2 = some r) := by
  induction l1 with
  | nil => exact Or.inr ⟨rfl, h⟩
  | cons p tl ih =>
    obtain ⟨a, v⟩ := p
    by_cases hk : k = a
    · subst hk
      rw [List.cons_append] at h
      simp only [List.lookup_cons, beq_self_eq_true, if_true] at h
      left
      simp only [List.lookup_cons, beq_self_eq_true, if_true]
      exact h
    · rw [List.cons_append] at h
      simp only [List.lookup_cons, beq_eq_false_iff_ne.2 hk, if_false] at h
      rcases ih h with h1 | h1
      · left
        simp only [List.lookup_cons, beq_eq_false_iff_ne.2 hk, if_false]
        exact h1
      · right
        refine ⟨?_, h1.2⟩
        simp only [List.lookup_cons, beq_eq_false_iff_ne.2 hk, if_false]
        exact h1.1

theorem lookup_singleton_eq {rid : Nat} {rec r : ReqRec} {k : Nat}
    (h : List.lookup k [(rid, rec)] = some r) : k = rid ∧ r = rec := by
  by_cases hk : k = rid
  · subst hk
    simp only [List.lookup_cons, beq_self_eq_true, if_true] at h
    exact ⟨rfl, (Option.some_inj.1 h).symm⟩
  · simp only [List.lookup_cons, beq_eq_false_iff_ne.2 hk, if_false] at h
    simp at h

/-- The state produced by a request submission, before `processQueue` runs:
the appended record got its batch list, the jobs are enqueued, the id counter
advanced. -/
theorem submit_state_eq {s : SysState} (hk : ∀ p ∈ s.store, (p : Nat × ReqRec).1 ≠ s.nextId)
    (ids : List Int) (pr : Priority) (now : Nat) :
    processIngestionRequest s.nextId ids pr now now
      { s with store := s.store ++ [(s.nextId,
          (⟨BatchStatus.yet_to_start, [], pr, now, ids⟩ : ReqRec))]
               nextId := s.nextId + 1 } =
    processQueue now
      { store := s.store ++ [(s.nextId,
          (⟨calculateOverallStatus ((batchChunks ids).enum.map
              (fun kc => (⟨s.nextId + 1 + kc.1, kc.2, BatchStatus.yet_to_start⟩ : BatchRec))),
            (batchChunks ids).enum.map
              (fun kc => (⟨s.nextId + 1 + kc.1, kc.2, BatchStatus.yet_to_start⟩ : BatchRec)),
            pr, now, ids⟩ : ReqRec))]
        queue := ((((batchChunks ids).enum.map
            (fun kc => (⟨s.nextId + 1 + kc.1, kc.2, BatchStatus.yet_to_start⟩ : BatchRec))).map
          (fun b => (⟨s.nextId, b.batch_id, pr, now⟩ : Job))).foldl enqueue s.queue)
        lastProcessingStartTime := s.lastProcessingStartTime
        inflight := s.inflight
        nextId := s.nextId + 1 + (batchChunks ids).length
        admissions := s.admissions } := by
  unfold processIngestionRequest
  dsimp only
  congr 1
  rw [List.map_append]
  congr 1
  congr 1
  · refine (List.map_congr_left ?_).trans (List.map_id s.store)
    intro p hp
    show (if p.1 = s.nextId then _ else p) = p
    rw [if_neg (hk p hp)]
  · simp

/-- The invariant holds, at the submission time, of the state a valid
submission builds just before its synchronous `processQueue` run. -/
theorem good_newRequest {s : SysState} {t now : Nat} (hg : GoodAt s t) (ht : t ≤ now)
    (ids : List Int) (pr : Priority) (batches : List BatchRec) (L : Nat)
    (hbid : ∀ b ∈ batches, ∃ k, k < L ∧ b.batch_id = s.nextId + 1 + k)
    (hbnd : (batches.map BatchRec.batch_id).Nodup)
    (hbst : ∀ b ∈ batches, b.status = BatchStatus.yet_to_start)
    (hbids : batches.map BatchRec.ids = batchChunks ids) :
    GoodAt
      { store := s.store ++ [(s.nextId,
          (⟨calculateOverallStatus batches, batches, pr, now, ids⟩ : ReqRec))]
        queue := ((batches.map
          (fun b => (⟨s.nextId, b.batch_id, pr, now⟩ : Job))).foldl enqueue s.queue)
        lastProcessingStartTime := s.lastProcessingStartTime
        inflight := s.inflight
        nextId := s.nextId + 1 + L
        admissions := s.admissions } now := by
  have hk : ∀ p ∈ s.store, (p : Nat × ReqRec).1 ≠ s.nextId :=
    fun p hp => Nat.ne_of_lt (hg.rid_lt p hp)
  refine
    { heap := foldl_enqueue_isHeap hg.heap _
      last_le := le_trans hg.last_le ht
      adm_chain := hg.adm_chain
      adm_last := hg.adm_last
      created_le := ?_
      rid_lt := ?_
      bid_lt := ?_
      bids_nodup := ?_
      queue_wf := ?_
      yts_queue := ?_
      adm_rec := ?_
      adm_rid_lt := ?_
      inflight_wf := ?_
      inflight_nodup := hg.inflight_nodup
      no_failed := ?_
      batches_chunks := ?_
      fifo := ?_ }
  · -- created_le
    intro p hp
    rcases List.mem_append.1 hp with hold | hnew
    · exact le_trans (hg.created_le p hold) ht
    · rw [List.mem_singleton] at hnew
      subst hnew
      exact le_refl now
  · -- rid_lt
    dsimp only
    intro p hp
    rcases List.mem_append.1 hp with hold | hnew
    · have h := hg.rid_lt p hold
      omega
    · rw [List.mem_singleton] at hnew
      subst hnew
      show s.nextId < s.nextId + 1 + L
      omega
  · -- bid_lt
    dsimp only
    intro p hp bb hbb
    rcases List.mem_append.1 hp with hold | hnew
    · have h := hg.bid_lt p hold bb hbb
      omega
    · rw [List.mem_singleton] at hnew
      subst hnew
      obtain ⟨k, hk1, hk2⟩ := hbid bb hbb
      omega
  · -- bids_nodup
    intro p hp
    rcases List.mem_append.1 hp with hold | hnew
    · exact hg.bids_nodup p hold
    · rw [List.mem_singleton] at hnew
      subst hnew
      exact hbnd
  · -- queue_wf
    intro j hj
    rcases (mem_foldl_enqueue _ _ _).1 hj with hq | hjobs
    · obtain ⟨r0, hr0, hp0, hc0, b0, hb0, hbid0⟩ := hg.queue_wf j hq
      exact ⟨r0, lookup_append_left hr0, hp0, hc0, b0, hb0, hbid0⟩
    · obtain ⟨b0, hb0, hje⟩ := List.mem_map.1 hjobs
      subst hje
      refine ⟨⟨calculateOverallStatus batches, batches, pr, now, ids⟩, ?_, rfl, rfl, b0, hb0, rfl⟩
      rw [lookup_append_fresh hk _ _, if_pos rfl]
  · -- yts_queue
    intro rid0 r hl b hb hst
    rcases lookup_append_cases hl with hold | ⟨_, hnew⟩
    · exact (mem_foldl_enqueue _ _ _).2 (Or.inl (hg.yts_queue rid0 r hold b hb hst))
    · obtain ⟨hky, hry⟩ := lookup_singleton_eq hnew
      subst hky
      subst hry
      exact (mem_foldl_enqueue _ _ _).2 (Or.inr (List.mem_map.2 ⟨b, hb, rfl⟩))
  · -- adm_rec
    intro rid0 r hl b hb hnst
    rcases lookup_append_cases hl with hold | ⟨_, hnew⟩
    · exact hg.adm_rec rid0 r hold b hb hnst
    · obtain ⟨hky, hry⟩ := lookup_singleton_eq hnew
      subst hry
      exact absurd (hbst b hb) hnst
  · -- adm_rid_lt
    dsimp only
    intro e he
    have h := hg.adm_rid_lt e he
    omega
  · -- inflight_wf
    intro q hq
    obtain ⟨r0, b0, hr0, hb0, hb0id, hb0st⟩ := hg.inflight_wf q hq
    exact ⟨r0, b0, lookup_append_left hr0, hb0, hb0id, hb0st⟩
  · -- no_failed
    intro p hp bb hbb
    rcases List.mem_append.1 hp with hold | hnew
    · exact hg.no_failed p hold bb hbb
    · rw [List.mem_singleton] at hnew
      subst hnew
      rw [hbst bb hbb]
      simp
  · -- batches_chunks
    intro p hp
    rcases List.mem_append.1 hp with hold | hnew
    · exact hg.batches_chunks p hold
    · rw [List.mem_singleton] at hnew
      subst hnew
      exact hbids
  · -- fifo
    intro ridA rA ridB rB hA hB hpr hct i e hi he b hb
    rcases lookup_append_cases hB with hBold | ⟨_, hBnew⟩
    · rcases lookup_append_cases hA with hAold | ⟨_, hAnew⟩
      · exact hg.fifo ridA rA ridB rB hAold hBold hpr hct i e hi he b hb
      · obtain ⟨hky, hry⟩ := lookup_singleton_eq hAnew
        subst hry
        exfalso
        have h1 : rB.createdAt ≤ t := hg.created_le (ridB, rB) (lookup_mem hBold)
        have h2 : now < rB.createdAt := hct
        omega
    · obtain ⟨hky, hry⟩ := lookup_singleton_eq hBnew
      exfalso
      have hmem := List.get?_mem hi
      have h3 := hg.adm_rid_lt e hmem
      rw [he, hky] at h3
      exact lt_irrefl _ h3

theorem good_processIngestionRequest {s : SysState} {t now : Nat} (hg : GoodAt s t)
    (ht : t ≤ now) (ids : List Int) (pr : Priority) :
    GoodAt (processIngestionRequest s.nextId ids pr now now
      { s with store := s.store ++ [(s.nextId,
          (⟨BatchStatus.yet_to_start, [], pr, now, ids⟩ : ReqRec))]
               nextId := s.nextId + 1 }) now := by
  have hk : ∀ p ∈ s.store, (p : Nat × ReqRec).1 ≠ s.nextId :=
    fun p hp => Nat.ne_of_lt (hg.rid_lt p hp)
  rw [submit_state_eq hk ids pr now]
  refine good_processQueue ?_ (le_refl now)
  refine good_newRequest hg ht ids pr _ (batchChunks ids).length ?_ ?_ ?_ ?_
  · intro b hb
    obtain ⟨kc, hkc, hbe⟩ := List.mem_map.1 hb
    obtain ⟨_, h2, _⟩ := mem_enumFrom_bounds (batchChunks ids) 0 kc hkc
    subst hbe
    exact ⟨kc.1, by simpa using h2, rfl⟩
  · have hfst : (((batchChunks ids).enum.map
        (fun kc => (⟨s.nextId + 1 + kc.1, kc.2, BatchStatus.yet_to_start⟩ : BatchRec))).map
          BatchRec.batch_id) =
        (((batchChunks ids).enumFrom 0).map Prod.fst).map (fun k => s.nextId + 1 + k) := by
      rw [List.map_map, List.map_map]
      rfl
    rw [hfst, enumFrom_map_fst]
    refine List.Nodup.map ?_ ?_
    · intro a b hab
      have h2 : s.nextId + 1 + a = s.nextId + 1 + b := hab
      omega
    · exact List.nodup_range' 0 (batchChunks ids).length
  · intro b hb
    obtain ⟨kc, _, hbe⟩ := List.mem_map.1 hb
    subst hbe
    rfl
  · have h1 : (((batchChunks ids).enum.map
        (fun kc => (⟨s.nextId + 1 + kc.1, kc.2, BatchStatus.yet_to_start⟩ : BatchRec))).map
          BatchRec.ids) =
        ((batchChunks ids).enumFrom 0).map Prod.snd := by
      rw [List.map_map]
      rfl
    rw [h1, enumFrom_map_snd]

/-- `handleIngestRequest` preserves the invariant at the request time: both
the validation failures (state untouched) and the success path (record
creation, batch minting and the synchronous `processQueue`). -/
theorem good_handleIngest {s : SysState} {t now : Nat} (hg : GoodAt s t) (ht : t ≤ now)
    (body : IngestBody) : GoodAt (handleIngestRequest now body s).2 now := by
  obtain ⟨oids, opri⟩ := body
  unfold handleIngestRequest
  rcases oids with _ | ids
  · exact good_mono hg ht
  · dsimp only
    by_cases hemp : ids.isEmpty = true
    · rw [if_pos hemp]
      exact good_mono hg ht
    · rw [if_neg hemp]
      rcases opri with _ | p
      · exact good_mono hg ht
      · dsimp only
        by_cases hpe : p.isEmpty = true
        · rw [if_pos hpe]
          exact good_mono hg ht
        · rw [if_neg hpe]
          rcases hpp : parsePriority p with _ | pr
          · exact good_mono hg ht
          · exact good_processIngestionRequest hg ht ids pr

/-- Every event-loop step preserves the invariant. -/
theorem step_good {s s' : SysState} {t now : Nat} (hg : GoodAt s t) (ht : t ≤ now)
    (hstep : Step now s s') : GoodAt s' now := by
  cases hstep with
  | submit a b => exact good_handleIngest hg ht a
  | wake a => exact good_processQueue hg ht
  | complete a b c d e => exact good_processQueue (good_completeBatch hg a e) ht

/-- The invariant at module load. -/
theorem good_init : GoodAt initState 0 := by
  refine
    { heap := isHeap_nil
      last_le := le_refl 0
      adm_chain := List.chain'_nil
      adm_last := Or.inl ⟨rfl, rfl⟩
      created_le := ?_
      rid_lt := ?_
      bid_lt := ?_
      bids_nodup := ?_
      queue_wf := ?_
      yts_queue := ?_
      adm_rec := ?_
      adm_rid_lt := ?_
      inflight_wf := ?_
      inflight_nodup := List.nodup_nil
      no_failed := ?_
      batches_chunks := ?_
      fifo := ?_ }
  · intro p hp
    exact absurd hp (List.not_mem_nil p)
  · intro p hp
    exact absurd hp (List.not_mem_nil p)
  · intro p hp
    exact absurd hp (List.not_mem_nil p)
  · intro p hp
    exact absurd hp (List.not_mem_nil p)
  · intro j hj
    exact absurd hj (List.not_mem_nil j)
  · intro rid r hl
    exact Option.noConfusion hl
  · intro rid r hl
    exact Option.noConfusion hl
  · intro e he
    exact absurd he (List.not_mem_nil e)
  · intro q hq
    exact absurd hq (List.not_mem_nil q)
  · intro p hp
    exact absurd hp (List.not_mem_nil p)
  · intro p hp
    exact absurd hp (List.not_mem_nil p)
  · intro ridA rA ridB rB hA
    exact Option.noConfusion hA

theorem exec_good : ∀ {t : Nat} {s s' : SysState}, ExecFrom t s s' → GoodAt s t →
    ∃ u, GoodAt s' u := by
  intro t s s' hex
  induction hex with
  | refl t s =>
    intro hg
    exact ⟨t, hg⟩
  | step htn hst hrest ih =>
    intro hg
    exact ih (step_good hg htn hst)

/-- Every reachable state satisfies the system invariant at some clock bound. -/
theorem reachable_good {s : SysState} (h : Reachable s) : ∃ t, GoodAt s t :=
  exec_good h good_init

/-! Per-batch status monotonicity along steps. -/

theorem statusLe_refl (a : BatchStatus) : statusLe a a := by
  cases a <;> trivial

theorem statusLe_trans {a b c : BatchStatus} (h1 : statusLe a b) (h2 : statusLe b c) :
    statusLe a c := by
  cases a <;> cases b <;> cases c <;> simp_all [statusLe]

theorem storeMono_refl (st : List (Nat × ReqRec)) : StoreMono st st :=
  fun _ r h => ⟨r, h, fun b hb => ⟨b, hb, rfl, statusLe_refl b.status⟩⟩

theorem storeMono_trans {a b c : List (Nat × ReqRec)} (h1 : StoreMono a b)
    (h2 : StoreMono b c) : StoreMono a c := by
  intro rid r hr
  obtain ⟨r1, hr1, hb1⟩ := h1 rid r hr
  obtain ⟨r2, hr2, hb2⟩ := h2 rid r1 hr1
  refine ⟨r2, hr2, ?_⟩
  intro bb hbb
  obtain ⟨c1, hc1m, hid1, hle1⟩ := hb1 bb hbb
  obtain ⟨c2, hc2m, hid2, hle2⟩ := hb2 c1 hc1m
  exact ⟨c2, hc2m, hid2.trans hid1, statusLe_trans hle1 hle2⟩

theorem storeMono_append (st l2 : List (Nat × ReqRec)) : StoreMono st (st ++ l2) :=
  fun _ r h => ⟨r, lookup_append_left h, fun b hb => ⟨b, hb, rfl, statusLe_refl b.status⟩⟩

theorem storeMono_updateBatch {store : List (Nat × ReqRec)} {rid0 bid0 : Nat}
    {st : BatchStatus} {r0 : ReqRec} {b0 : BatchRec}
    (hr0 : List.lookup rid0 store = some r0)
    (hnd : ∀ p ∈ store, (((p : Nat × ReqRec).2.batches.map BatchRec.batch_id)).Nodup)
    (hb0 : b0 ∈ r0.batches) (hb0id : b0.batch_id = bid0)
    (hle : statusLe b0.status st) :
    StoreMono store (updateBatch store rid0 bid0 st) := by
  intro rid r hr
  rw [lookup_updateBatch]
  by_cases hk : rid = rid0
  · subst hk
    rw [if_pos rfl, hr]
    have hrr : r0 = r := Option.some_inj.1 (hr0.symm.trans hr)
    subst hrr
    refine ⟨setBatchStatus r0 bid0 st, rfl, ?_⟩
    intro b hb
    refine ⟨(if b.batch_id = bid0 then { b with status := st } else b),
      setBatchStatus_mem hb, ?_, ?_⟩
    · by_cases hc : b.batch_id = bid0
      · rw [if_pos hc]
      · rw [if_neg hc]
    · by_cases hc : b.batch_id = bid0
      · rw [if_pos hc]
        have hbb : b = b0 := batch_id_inj (hnd (rid, r0) (lookup_mem hr)) hb hb0
          (hc.trans hb0id.symm)
        show statusLe b.status st
        rw [hbb]
        exact hle
      · rw [if_neg hc]
        exact statusLe_refl b.status
  · rw [if_neg hk]
    exact ⟨r, hr, fun b hb => ⟨b, hb, rfl, statusLe_refl b.status⟩⟩

theorem storeMono_processQueue {s : SysState}
    (hnd : ∀ p ∈ s.store, (((p : Nat × ReqRec).2.batches.map BatchRec.batch_id)).Nodup)
    (hh : IsHeap s.queue) (now : Nat) :
    StoreMono s.store (processQueue now s).store := by
  rcases processQueue_spec now s hh with ⟨h1, _⟩ | h
  · rw [h1]
    exact storeMono_refl _
  · obtain ⟨job, b, hjb, hst, _, _, hstore, _⟩ := h
    rw [hstore]
    unfold jobBatch at hjb
    obtain ⟨r0, hl0, hf0⟩ := Option.bind_eq_some.1 hjb
    have hb0 : b ∈ r0.batches := List.mem_of_find?_eq_some hf0
    have hbid0 : b.batch_id = job.batchId := by simpa using List.find?_some hf0
    exact storeMono_updateBatch hl0 hnd hb0 hbid0 (by rw [hst]; trivial)

theorem nodup_processQueue {s : SysState}
    (hnd : ∀ p ∈ s.store, (((p : Nat × ReqRec).2.batches.map BatchRec.batch_id)).Nodup)
    (hh : IsHeap s.queue) (now : Nat) :
    ∀ p ∈ (processQueue now s).store,
      (((p : Nat × ReqRec).2.batches.map BatchRec.batch_id)).Nodup := by
  rcases processQueue_spec now s hh with ⟨h1, _⟩ | h
  · rw [h1]
    exact hnd
  · obtain ⟨job, b, _, _, _, _, hstore, _⟩ := h
    rw [hstore]
    intro p hp
    obtain ⟨p0, hp0, _, hpe⟩ := mem_updateBatch hp
    rcases hpe with h2 | h2 <;> rw [h2]
    · exact hnd p0 hp0
    · rw [setBatchStatus_map_batch_id]
      exact hnd p0 hp0

theorem storeMono_completeBatch {s : SysState} {t : Nat} (hg : GoodAt s t)
    (delays : Int → Nat) {rid bid : Nat} (hmem : (rid, bid) ∈ s.inflight) :
    StoreMono s.store (completeBatch delays rid bid s).store := by
  obtain ⟨r, b, hr, hb, hbid, hbst⟩ := hg.inflight_wf (rid, bid) hmem
  have hnd := hg.bids_nodup (rid, r) (lookup_mem hr)
  have hfind : r.batches.find? (fun x => x.batch_id == bid) = some b := by
    have h := find?_batch_eq hnd hb
    rw [hbid] at h
    exact h
  have hsc : (List.lookup rid s.store).bind
      (fun rr => rr.batches.find? fun x => x.batch_id == bid) = some b := by
    rw [hr]
    exact hfind
  unfold completeBatch
  rw [hsc]
  dsimp only
  rw [processSingleBatchOutcome_completed]
  exact storeMono_updateBatch hr hg.bids_nodup hb hbid (by rw [hbst]; trivial)

theorem enum_batches_nodup (n : Nat) (ids : List Int) :
    ((((batchChunks ids).enum.map
      (fun kc => (⟨n + kc.1, kc.2, BatchStatus.yet_to_start⟩ : BatchRec)))).map
        BatchRec.batch_id).Nodup := by
  have hfst : (((batchChunks ids).enum.map
      (fun kc => (⟨n + kc.1, kc.2, BatchStatus.yet_to_start⟩ : BatchRec))).map
        BatchRec.batch_id) =
      (((batchChunks ids).enumFrom 0).map Prod.fst).map (fun k => n + k) := by
    rw [List.map_map, List.map_map]
    rfl
  rw [hfst, enumFrom_map_fst]
  refine List.Nodup.map ?_ ?_
  · intro a b hab
    have h2 : n + a = n + b := hab
    omega
  · exact List.nodup_range' 0 (batchChunks ids).length

theorem storeMono_handleIngest {s : SysState} {t now : Nat} (hg : GoodAt s t)
    (body : IngestBody) : StoreMono s.store (handleIngestRequest now body s).2.store := by
  obtain ⟨oids, opri⟩ := body
  unfold handleIngestRequest
  rcases oids with _ | ids
  · exact storeMono_refl s.store
  · dsimp only
    by_cases hemp : ids.isEmpty = true
    · rw [if_pos hemp]
      exact storeMono_refl s.store
    · rw [if_neg hemp]
      rcases opri with _ | p
      · exact storeMono_refl s.store
      · dsimp only
        by_cases hpe : p.isEmpty = true
        · rw [if_pos hpe]
          exact storeMono_refl s.store
        · rw [if_neg hpe]
          rcases hpp : parsePriority p with _ | pr
          · exact storeMono_refl s.store
          · have hk : ∀ q ∈ s.store, (q : Nat × ReqRec).1 ≠ s.nextId :=
              fun q hq => Nat.ne_of_lt (hg.rid_lt q hq)
            show StoreMono s.store (processIngestionRequest s.nextId ids pr now now
              { s with store := s.store ++ [(s.nextId,
                  (⟨BatchStatus.yet_to_start, [], pr, now, ids⟩ : ReqRec))]
                       nextId := s.nextId + 1 }).store
            rw [submit_state_eq hk ids pr now]
            refine storeMono_trans ?_ (storeMono_processQueue ?_ ?_ now)
            · exact storeMono_append s.store _
            · intro q hq
              rcases List.mem_append.1 hq with hold | hnew
              · exact hg.bids_nodup q hold
              · rw [List.mem_singleton] at hnew
                subst hnew
                exact enum_batches_nodup (s.nextId + 1) ids
            · exact foldl_enqueue_isHeap hg.heap _

theorem nodup_handleIngest {s : SysState} {t now : Nat} (hg : GoodAt s t)
    (body : IngestBody) : ∀ p ∈ (handleIngestRequest now body s).2.store,
      (((p : Nat × ReqRec).2.batches.map BatchRec.batch_id)).Nodup := by
  obtain ⟨oids, opri⟩ := body
  unfold handleIngestRequest
  rcases oids with _ | ids
  · exact hg.bids_nodup
  · dsimp only
    by_cases hemp : ids.isEmpty = true
    · rw [if_pos hemp]
      exact hg.bids_nodup
    · rw [if_neg hemp]
      rcases opri with _ | p
      · exact hg.bids_nodup
      · dsimp only
        by_cases hpe : p.isEmpty = true
        · rw [if_pos hpe]
          exact hg.bids_nodup
        · rw [if_neg hpe]
          rcases hpp : parsePriority p with _ | pr
          · exact hg.bids_nodup
          · have hk : ∀ q ∈ s.store, (q : Nat × ReqRec).1 ≠ s.nextId :=
              fun q hq => Nat.ne_of_lt (hg.rid_lt q hq)
            show ∀ p ∈ (processIngestionRequest s.nextId ids pr now now
              { s with store := s.store ++ [(s.nextId,
                  (⟨BatchStatus.yet_to_start, [], pr, now, ids⟩ : ReqRec))]
                       nextId := s.nextId + 1 }).store,
              (((p : Nat × ReqRec).2.batches.map BatchRec.batch_id)).Nodup
            rw [submit_state_eq hk ids pr now]
            refine nodup_processQueue ?_ ?_ now
            · intro q hq
              rcases List.mem_append.1 hq with hold | hnew
              · exact hg.bids_nodup q hold
              · rw [List.mem_singleton] at hnew
                subst hnew
                exact enum_batches_nodup (s.nextId + 1) ids
            · exact foldl_enqueue_isHeap hg.heap _

theorem step_storeMono {s s' : SysState} {t now : Nat} (hg : GoodAt s t)
    (hstep : Step now s s') : StoreMono s.store s'.store := by
  cases hstep with
  | submit a b => exact storeMono_handleIngest hg a
  | wake a => exact storeMono_processQueue hg.bids_nodup hg.heap now
  | complete a b c d e =>
      have hg2 := good_completeBatch hg a e
      exact storeMono_trans (storeMono_completeBatch hg a e)
        (storeMono_processQueue hg2.bids_nodup hg2.heap now)

theorem step_nodup {s s' : SysState} {t now : Nat} (hg : GoodAt s t)
    (hstep : Step now s s') :
    ∀ p ∈ s'.store, (((p : Nat × ReqRec).2.batches.map BatchRec.batch_id)).Nodup := by
  cases hstep with
  | submit a b => exact nodup_handleIngest hg a
  | wake a => exact nodup_processQueue hg.bids_nodup hg.heap now
  | complete a b c d e =>
      have hg2 := good_completeBatch hg a e
      exact nodup_processQueue hg2.bids_nodup hg2.heap now

/-! Helper facts for the claim theorems. -/

theorem enum_batches_status (n : Nat) (ids : List Int) :
    ∀ b ∈ (batchChunks ids).enum.map
      (fun kc => (⟨n + kc.1, kc.2, BatchStatus.yet_to_start⟩ : BatchRec)),
      b.status = BatchStatus.yet_to_start := by
  intro b hb
  obtain ⟨kc, _, hbe⟩ := List.mem_map.1 hb
  subst hbe
  rfl

theorem enum_batches_ids (n : Nat) (ids : List Int) :
    (((batchChunks ids).enum.map
      (fun kc => (⟨n + kc.1, kc.2, BatchStatus.yet_to_start⟩ : BatchRec))).map
        BatchRec.ids) = batchChunks ids := by
  have h1 : (((batchChunks ids).enum.map
      (fun kc => (⟨n + kc.1, kc.2, BatchStatus.yet_to_start⟩ : BatchRec))).map
        BatchRec.ids) = ((batchChunks ids).enumFrom 0).map Prod.snd := by
    rw [List.map_map]
    rfl
  rw [h1, enumFrom_map_snd]

theorem countP_triggered_zero {batches : List BatchRec}
    (hbst : ∀ b ∈ batches, b.status = BatchStatus.yet_to_start) :
    batches.countP (fun b => b.status == BatchStatus.triggered) = 0 := by
  rw [List.countP_eq_zero]
  intro a ha
  rw [hbst a ha]
  simp

theorem countP_bid_le_one : ∀ {batches : List BatchRec},
    (batches.map BatchRec.batch_id).Nodup → ∀ bid,
    batches.countP (fun b => b.batch_id == bid) ≤ 1 := by
  intro batches
  induction batches with
  | nil =>
    intro _ bid
    simp [List.countP_nil]
  | cons c tl ih =>
    intro hnd bid
    rw [List.map_cons, List.nodup_cons] at hnd
    rw [List.countP_cons]
    by_cases hc : c.batch_id = bid
    · have hz : tl.countP (fun b => b.batch_id == bid) = 0 := by
        rw [List.countP_eq_zero]
        intro a ha hcon
        rw [beq_iff_eq] at hcon
        exact hnd.1 (by rw [hc, ← hcon]; exact List.mem_map_of_mem BatchRec.batch_id ha)
      rw [hz]
      simp [hc]
    · have hf : (c.batch_id == bid) = false := beq_eq_false_iff_ne.2 hc
      rw [hf]
      simpa using ih hnd.2 bid

/-- After one `processQueue` run, a request whose batches were all
`yet_to_start` still lists the same batch contents, each batch is
`yet_to_start` or `triggered`, and at most one is `triggered`. -/
theorem processQueue_fresh_lookup {S : SysState} {k now : Nat} (rec : ReqRec)
    {out : List (List Int)} (hh : IsHeap S.queue)
    (hlk : List.lookup k S.store = some rec)
    (hbst : ∀ b ∈ rec.batches, b.status = BatchStatus.yet_to_start)
    (hbnd : (rec.batches.map BatchRec.batch_id).Nodup)
    (hout : rec.batches.map BatchRec.ids = out) :
    ∃ r, List.lookup k (processQueue now S).store = some r ∧
      r.batches.map BatchRec.ids = out ∧
      (∀ b ∈ r.batches, b.status = BatchStatus.yet_to_start ∨
        b.status = BatchStatus.triggered) ∧
      r.batches.countP (fun b => b.status == BatchStatus.triggered) ≤ 1 := by
  rcases processQueue_spec now S hh with ⟨h1, _⟩ | ha
  · rw [h1]
    refine ⟨rec, hlk, hout, fun b hb => Or.inl (hbst b hb), ?_⟩
    rw [countP_triggered_zero hbst]
    omega
  · obtain ⟨job, b, _, _, _, _, hstore, _⟩ := ha
    rw [hstore, lookup_updateBatch]
    by_cases hkj : k = job.ingestionId
    · rw [if_pos hkj, hlk]
      refine ⟨setBatchStatus rec job.batchId BatchStatus.triggered, rfl, ?_, ?_, ?_⟩
      · rw [setBatchStatus_map_ids]
        exact hout
      · intro b2 hb2
        obtain ⟨b0, hb0, hite⟩ := mem_setBatchStatus hb2
        by_cases hc : b0.batch_id = job.batchId
        · rw [if_pos hc] at hite
          rw [hite]
          exact Or.inr rfl
        · rw [if_neg hc] at hite
          rw [hite]
          exact Or.inl (hbst b0 hb0)
      · show ((setBatchStatus rec job.batchId BatchStatus.triggered).batches.countP
          (fun b2 => b2.status == BatchStatus.triggered)) ≤ 1
        unfold setBatchStatus
        rw [List.countP_map]
        have hcongr : ∀ a ∈ rec.batches,
            (((fun b2 : BatchRec => b2.status == BatchStatus.triggered) ∘
              (fun b2 : BatchRec => if b2.batch_id = job.batchId then
                { b2 with status := BatchStatus.triggered } else b2)) a = true ↔
              (a.batch_id == job.batchId) = true) := by
          intro a ha
          by_cases hc : a.batch_id = job.batchId
          · simp [hc]
          · simp [hc, hbst a ha]
        rw [List.countP_congr hcongr]
        exact countP_bid_le_one hbnd job.batchId
    · rw [if_neg hkj, hlk]
      refine ⟨rec, rfl, hout, fun b2 hb2 => Or.inl (hbst b2 hb2), ?_⟩
      rw [countP_triggered_zero hbst]
      omega

/-! The claims. -/

/-- C1: in every reachable state, any two recorded `yet_to_start → triggered`
transitions (the admission trace keeps each with its clock time) lie at least
`RATE_LIMIT_MS = 5000` time-units apart, across all requests and priorities;
and every `processQueue` run either admits exactly one batch (`PQAdmit`) or —
in particular when it only discards stale jobs — leaves
`lastProcessingStartTime` and the admission trace untouched (`PQUnchanged`),
so a discard consumes no rate-limit budget. -/
theorem claim1_theorem (s : SysState) (h : Reachable s) :
    List.Pairwise (fun a b => (a : Nat × Nat × Nat).1 + RATE_LIMIT_MS ≤ b.1) s.admissions ∧
    ∀ now, PQUnchanged s (processQueue now s) ∨ PQAdmit now s (processQueue now s) := by
  obtain ⟨t, hg⟩ := reachable_good h
  constructor
  · have htr : IsTrans (Nat × Nat × Nat) (fun a b => a.1 + RATE_LIMIT_MS ≤ b.1) :=
      ⟨fun a b c h1 h2 => by omega⟩
    exact (@List.chain'_iff_pairwise _ _ htr _).1 hg.adm_chain
  · intro now
    exact processQueue_spec now s hg.heap

/-- C1 witness: the state reached by submitting `{ids: [1,2,3,4],
priority: "MEDIUM"}` at time 5000 from module load. -/
theorem claim1_witness :
    List.Pairwise (fun a b => (a : Nat × Nat × Nat).1 + RATE_LIMIT_MS ≤ b.1)
      (handleIngestRequest 5000 ⟨some [1, 2, 3, 4], some "MEDIUM"⟩ initState).2.admissions ∧
    (PQUnchanged (handleIngestRequest 5000 ⟨some [1, 2, 3, 4], some "MEDIUM"⟩ initState).2
        (processQueue 9000
          (handleIngestRequest 5000 ⟨some [1, 2, 3, 4], some "MEDIUM"⟩ initState).2) ∨
      PQAdmit 9000 (handleIngestRequest 5000 ⟨some [1, 2, 3, 4], some "MEDIUM"⟩ initState).2
        (processQueue 9000
          (handleIngestRequest 5000 ⟨some [1, 2, 3, 4], some "MEDIUM"⟩ initState).2)) := by
  have h := claim1_theorem (handleIngestRequest 5000 ⟨some [1, 2, 3, 4], some "MEDIUM"⟩ initState).2
    (ExecFrom.step (Nat.zero_le 5000)
      (Step.submit 5000 ⟨some [1, 2, 3, 4], some "MEDIUM"⟩ initState)
      (ExecFrom.refl 5000 _))
  exact ⟨h.1, h.2 9000⟩

/-- C2 counterexample: submitting `{ids: [1], priority: "HIGH"}` at time 5000
from module load returns requestId 0, yet at that very moment the request's
only batch is already `triggered` — `handleIngestRequest` runs
`processIngestionRequest`, whose `processQueue` call admits the first batch,
synchronously before the 202 response is produced. -/
theorem claim2_counterexample :
    (handleIngestRequest 5000 ⟨some [1], some "HIGH"⟩ initState).1 = Except.ok 0 ∧
    (List.lookup 0 (handleIngestRequest 5000 ⟨some [1], some "HIGH"⟩ initState).2.store).map
      (fun r => r.batches.map BatchRec.status) = some [BatchStatus.triggered] :=
  ⟨rfl, by decide⟩

/-- C2 (amended): a valid submission returns the fresh requestId with the
record and all its batches created (contents exactly the chunk split), and at
the moment the response is produced every batch is `yet_to_start` or
`triggered`, with at most one `triggered` (the one the synchronous
`processQueue` run may admit before the response). -/
theorem claim2_theorem {s : SysState} {t now : Nat} (hg : GoodAt s t)
    (ids : List Int) (p : String) (pr : Priority) (hne : ids ≠ [])
    (hp : parsePriority p = some pr) :
    (handleIngestRequest now ⟨some ids, some p⟩ s).1 = Except.ok s.nextId ∧
    ∃ r, List.lookup s.nextId (handleIngestRequest now ⟨some ids, some p⟩ s).2.store = some r ∧
      r.batches.map BatchRec.ids = batchChunks ids ∧
      (∀ b ∈ r.batches, b.status = BatchStatus.yet_to_start ∨
        b.status = BatchStatus.triggered) ∧
      r.batches.countP (fun b => b.status == BatchStatus.triggered) ≤ 1 := by
  have hie : ids.isEmpty = false := by
    cases ids with
    | nil => exact absurd rfl hne
    | cons a l => rfl
  have hpe : p.isEmpty = false := by
    by_cases hq : p.isEmpty = true
    · rw [String.isEmpty_iff] at hq
      subst hq
      have hz : parsePriority "" = none := by decide
      rw [hz] at hp
      exact Option.noConfusion hp
    · simpa using hq
  have hk : ∀ q ∈ s.store, (q : Nat × ReqRec).1 ≠ s.nextId :=
    fun q hq => Nat.ne_of_lt (hg.rid_lt q hq)
  unfold handleIngestRequest
  dsimp only
  simp only [hie, Bool.false_eq_true, if_false]
  simp only [hpe, Bool.false_eq_true, if_false]
  rw [hp]
  dsimp only
  refine ⟨rfl, ?_⟩
  rw [submit_state_eq hk ids pr now]
  refine processQueue_fresh_lookup
    ⟨calculateOverallStatus ((batchChunks ids).enum.map
        (fun kc => (⟨s.nextId + 1 + kc.1, kc.2, BatchStatus.yet_to_start⟩ : BatchRec))),
      (batchChunks ids).enum.map
        (fun kc => (⟨s.nextId + 1 + kc.1, kc.2, BatchStatus.yet_to_start⟩ : BatchRec)),
      pr, now, ids⟩
    (foldl_enqueue_isHeap hg.heap _) ?_ ?_ ?_ ?_
  · rw [lookup_append_fresh hk _ _, if_pos rfl]
  · exact enum_batches_status (s.nextId + 1) ids
  · exact enum_batches_nodup (s.nextId + 1) ids
  · exact enum_batches_ids (s.nextId + 1) ids

/-- C2 witness: the spec's concrete scenario `{ids: [1,2,3,4],
priority: "MEDIUM"}`, submitted at time 5000 from module load. -/
theorem claim2_witness :
    (handleIngestRequest 5000 ⟨some [1, 2, 3, 4], some "MEDIUM"⟩ initState).1 =
      Except.ok initState.nextId ∧
    ∃ r, List.lookup initState.nextId
        (handleIngestRequest 5000 ⟨some [1, 2, 3, 4], some "MEDIUM"⟩ initState).2.store =
        some r ∧
      r.batches.map BatchRec.ids = batchChunks [1, 2, 3, 4] ∧
      (∀ b ∈ r.batches, b.status = BatchStatus.yet_to_start ∨
        b.status = BatchStatus.triggered) ∧
      r.batches.countP (fun b => b.status == BatchStatus.triggered) ≤ 1 :=
  claim2_theorem good_init [1, 2, 3, 4] "MEDIUM" Priority.MEDIUM
    (by decide) (by decide)

/-- C6: same-priority FIFO between requests, in every reachable state:
whenever the admission trace shows a batch of the later-created of two
same-priority requests admitted at position `i`, every batch of the earlier
request was admitted at a position before `i`; and trace positions are
chronological (admission times strictly increase). -/
theorem claim6_theorem (s : SysState) (h : Reachable s) :
    FifoProp s ∧
    List.Chain' (fun a b => (a : Nat × Nat × Nat).1 < b.1) s.admissions := by
  obtain ⟨t, hg⟩ := reachable_good h
  refine ⟨hg.fifo, List.Chain'.imp ?_ hg.adm_chain⟩
  intro a b hab
  have h5 : (0 : Nat) < RATE_LIMIT_MS := by decide
  omega

/-- C6 witness: two same-priority requests submitted at times 5000 and 9000
from module load. -/
theorem claim6_witness :
    FifoProp (handleIngestRequest 9000 ⟨some [2], some "HIGH"⟩
      (handleIngestRequest 5000 ⟨some [1], some "HIGH"⟩ initState).2).2 ∧
    List.Chain' (fun a b => (a : Nat × Nat × Nat).1 < b.1)
      (handleIngestRequest 9000 ⟨some [2], some "HIGH"⟩
        (handleIngestRequest 5000 ⟨some [1], some "HIGH"⟩ initState).2).2.admissions :=
  claim6_theorem _
    (ExecFrom.step (Nat.zero_le 5000)
      (Step.submit 5000 ⟨some [1], some "HIGH"⟩ initState)
      (ExecFrom.step (by decide)
        (Step.submit 9000 ⟨some [2], some "HIGH"⟩
          (handleIngestRequest 5000 ⟨some [1], some "HIGH"⟩ initState).2)
        (ExecFrom.refl 9000 _)))

/-- C7: across any single event-loop step from a reachable state, a batch
(identified by its id within its request) never regresses: its status moves
only along `statusLe`, the order `yet_to_start → triggered →
{completed, failed}` in which `completed` and `failed` are terminal. -/
theorem claim7_theorem (s : SysState) (h : Reachable s) (now : Nat) (s' : SysState)
    (hstep : Step now s s') (rid : Nat) (r r' : ReqRec) (b b' : BatchRec)
    (hr : List.lookup rid s.store = some r) (hr' : List.lookup rid s'.store = some r')
    (hb : b ∈ r.batches) (hb' : b' ∈ r'.batches) (hid : b'.batch_id = b.batch_id) :
    statusLe b.status b'.status := by
  obtain ⟨t, hg⟩ := reachable_good h
  obtain ⟨r2, hr2, hbmono⟩ := step_storeMono hg hstep rid r hr
  have hrr : r2 = r' := Option.some_inj.1 (hr2.symm.trans hr')
  subst hrr
  obtain ⟨b2, hb2, hb2id, hb2le⟩ := hbmono b hb
  have hnd := step_nodup hg hstep (rid, r2) (lookup_mem hr2)
  have hbb : b' = b2 := batch_id_inj hnd hb' hb2 (hid.trans hb2id.symm)
  rw [hbb]
  exact hb2le

/-- C7 witness: the batch admitted by a submission at time 5000 moves
`triggered → completed` when its promise resolves at time 7000. -/
theorem claim7_witness :
    statusLe (⟨1, [1], BatchStatus.triggered⟩ : BatchRec).status
      (⟨1, [1], BatchStatus.completed⟩ : BatchRec).status :=
  claim7_theorem (handleIngestRequest 5000 ⟨some [1], some "HIGH"⟩ initState).2
    (ExecFrom.step (Nat.zero_le 5000)
      (Step.submit 5000 ⟨some [1], some "HIGH"⟩ initState) (ExecFrom.refl 5000 _))
    7000 _
    (Step.complete 7000 (fun _ => 0) 0 1
      (handleIngestRequest 5000 ⟨some [1], some "HIGH"⟩ initState).2 (by decide))
    0
    ⟨BatchStatus.yet_to_start, [⟨1, [1], BatchStatus.triggered⟩],
      Priority.HIGH, 5000, [1]⟩
    ⟨BatchStatus.yet_to_start, [⟨1, [1], BatchStatus.completed⟩],
      Priority.HIGH, 5000, [1]⟩
    ⟨1, [1], BatchStatus.triggered⟩ ⟨1, [1], BatchStatus.completed⟩
    (by decide) (by decide) (by decide) (by decide) rfl

/-- C8 counterexample: the claimed validation condition is priority ∈
{HIGH, MEDIUM, LOW}, but the controller compares `priority.toUpperCase()`,
so the lower-case string "high" — not one of the three accepted values — is
accepted rather than rejected. -/
theorem claim8_counterexample :
    (handleIngestRequest 0 ⟨some [1], some "high"⟩ initState).1 = Except.ok 0 ∧
    "high" ∉ validPriorityStrings :=
  ⟨rfl, by decide⟩

/-- C8 (amended): submit fails with a validation error if and only if the
ids list is absent or empty, or the priority is absent, or
`priority.toUpperCase()` is not one of HIGH, MEDIUM, LOW (equivalently
`parsePriority` rejects it); and on a validation error the state is returned
unchanged — no request record is created. -/
theorem claim8_theorem (now : Nat) (body : IngestBody) (s : SysState) :
    ((∃ e, (handleIngestRequest now body s).1 = Except.error e) ↔
      (body.ids = none ∨ body.ids = some [] ∨ body.priority = none ∨
        (∃ p, body.priority = some p ∧ parsePriority p = none))) ∧
    ((∃ e, (handleIngestRequest now body s).1 = Except.error e) →
      (handleIngestRequest now body s).2 = s) := by
  obtain ⟨oids, opri⟩ := body
  unfold handleIngestRequest
  rcases oids with _ | ids
  · exact ⟨⟨fun _ => Or.inl rfl, fun _ => ⟨_, rfl⟩⟩, fun _ => rfl⟩
  · dsimp only
    by_cases hie : ids.isEmpty = true
    · have hnil : ids = [] := by
        cases ids with
        | nil => rfl
        | cons a l => exact absurd hie (by simp)
      subst hnil
      rw [if_pos hie]
      exact ⟨⟨fun _ => Or.inr (Or.inl rfl), fun _ => ⟨_, rfl⟩⟩, fun _ => rfl⟩
    · rw [if_neg hie]
      have hne : ids ≠ [] := by
        intro hcon
        subst hcon
        exact hie rfl
      rcases opri with _ | p
      · exact ⟨⟨fun _ => Or.inr (Or.inr (Or.inl rfl)), fun _ => ⟨_, rfl⟩⟩, fun _ => rfl⟩
      · dsimp only
        by_cases hpe : p.isEmpty = true
        · rw [if_pos hpe]
          have hpnil : p = "" := (String.isEmpty_iff p).1 hpe
          subst hpnil
          exact ⟨⟨fun _ => Or.inr (Or.inr (Or.inr ⟨"", rfl, by decide⟩)),
            fun _ => ⟨_, rfl⟩⟩, fun _ => rfl⟩
        · rw [if_neg hpe]
          rcases hpp : parsePriority p with _ | pr
          · exact ⟨⟨fun _ => Or.inr (Or.inr (Or.inr ⟨p, rfl, hpp⟩)),
              fun _ => ⟨_, rfl⟩⟩, fun _ => rfl⟩
          · constructor
            · constructor
              · rintro ⟨e, he⟩
                exact Except.noConfusion he
              · rintro (h2 | h2 | h2 | ⟨p2, hp2, hparse⟩)
                · exact Option.noConfusion h2
                · exact absurd (Option.some_inj.1 h2) hne
                · exact Option.noConfusion h2
                · obtain rfl : p = p2 := Option.some_inj.1 hp2
                  rw [hparse] at hpp
                  exact Option.noConfusion hpp
            · rintro ⟨e, he⟩
              exact Except.noConfusion he

/-- C8 witness: the spec's concrete invalid submissions, empty ids and the
priority "URGENT". -/
theorem claim8_witness :
    (((∃ e, (handleIngestRequest 0 ⟨some [], some "HIGH"⟩ initState).1 = Except.error e) ↔
      ((⟨some [], some "HIGH"⟩ : IngestBody).ids = none ∨
        (⟨some [], some "HIGH"⟩ : IngestBody).ids = some [] ∨
        (⟨some [], some "HIGH"⟩ : IngestBody).priority = none ∨
        (∃ p, (⟨some [], some "HIGH"⟩ : IngestBody).priority = some p ∧
          parsePriority p = none))) ∧
    ((∃ e, (handleIngestRequest 0 ⟨some [], some "HIGH"⟩ initState).1 = Except.error e) →
      (handleIngestRequest 0 ⟨some [], some "HIGH"⟩ initState).2 = initState)) ∧
    (((∃ e, (handleIngestRequest 0 ⟨some [1], some "URGENT"⟩ initState).1 = Except.error e) ↔
      ((⟨some [1], some "URGENT"⟩ : IngestBody).ids = none ∨
        (⟨some [1], some "URGENT"⟩ : IngestBody).ids = some [] ∨
        (⟨some [1], some "URGENT"⟩ : IngestBody).priority = none ∨
        (∃ p, (⟨some [1], some "URGENT"⟩ : IngestBody).priority = some p ∧
          parsePriority p = none))) ∧
    ((∃ e, (handleIngestRequest 0 ⟨some [1], some "URGENT"⟩ initState).1 = Except.error e) →
      (handleIngestRequest 0 ⟨some [1], some "URGENT"⟩ initState).2 = initState)) :=
  ⟨claim8_theorem 0 ⟨some [], some "HIGH"⟩ initState,
   claim8_theorem 0 ⟨some [1], some "URGENT"⟩ initState⟩

/-- C9: in every reachable state, `getIngestionStatus` fails with the
not-found error exactly for requestIds absent from the store; for a known id
it returns `{ ingestion_id, status, batches: [{ batch_id, ids, status }] }`
with the overall status recomputed by the aggregator and the batches in
stored order — which is the original submission order, their `ids` fields
concatenating back to the submitted list (`batchChunks` of the original
ids). -/
theorem claim9_theorem (s : SysState) (h : Reachable s) (rid : Nat) :
    (getIngestionStatus s.store rid = Except.error "Ingestion ID not found." ↔
      List.lookup rid s.store = none) ∧
    (∀ r, List.lookup rid s.store = some r →
      getIngestionStatus s.store rid = Except.ok
        ⟨rid, calculateOverallStatus r.batches,
          r.batches.map fun b => ⟨b.batch_id, b.ids, b.status⟩⟩ ∧
      r.batches.map BatchRec.ids = batchChunks r.original_ids) := by
  obtain ⟨t, hg⟩ := reachable_good h
  constructor
  · unfold getIngestionStatus
    cases hl : List.lookup rid s.store with
    | none => exact ⟨fun _ => rfl, fun _ => rfl⟩
    | some r =>
      constructor
      · intro hcon
        exact Except.noConfusion hcon
      · intro hcon
        exact Option.noConfusion hcon
  · intro r hr
    constructor
    · unfold getIngestionStatus
      rw [hr]
    · exact hg.batches_chunks (rid, r) (lookup_mem hr)

/-- C9 witness: the state after submitting `{ids: [1,2,3,4],
priority: "MEDIUM"}` at time 5000, queried for the issued id 0. -/
theorem claim9_witness :
    (getIngestionStatus
        (handleIngestRequest 5000 ⟨some [1, 2, 3, 4], some "MEDIUM"⟩ initState).2.store 0 =
        Except.error "Ingestion ID not found." ↔
      List.lookup 0
        (handleIngestRequest 5000 ⟨some [1, 2, 3, 4], some "MEDIUM"⟩ initState).2.store =
        none) ∧
    (∀ r, List.lookup 0
        (handleIngestRequest 5000 ⟨some [1, 2, 3, 4], some "MEDIUM"⟩ initState).2.store =
        some r →
      getIngestionStatus
        (handleIngestRequest 5000 ⟨some [1, 2, 3, 4], some "MEDIUM"⟩ initState).2.store 0 =
        Except.ok ⟨0, calculateOverallStatus r.batches,
          r.batches.map fun b => ⟨b.batch_id, b.ids, b.status⟩⟩ ∧
      r.batches.map BatchRec.ids = batchChunks r.original_ids) :=
  claim9_theorem _
    (ExecFrom.step (Nat.zero_le 5000)
      (Step.submit 5000 ⟨some [1, 2, 3, 4], some "MEDIUM"⟩ initState)
      (ExecFrom.refl 5000 _)) 0

/-- C10: `simulateApiCall` always resolves with `{id, data: "processed"}`
and has no rejection path, so `processSingleBatch`'s catch branch is
unreachable — every batch outcome is `completed`; consequently no batch in
any reachable state is ever `failed`, and when the promise of an in-flight
(admitted) batch resolves, that batch's stored status becomes `completed`. -/
theorem claim10_theorem (s : SysState) (h : Reachable s) :
    (∀ i d, simulateApiCall i d = Except.ok (i, "processed")) ∧
    (∀ delays b, processSingleBatchOutcome delays b = BatchStatus.completed) ∧
    (∀ p ∈ s.store, ∀ b ∈ (p : Nat × ReqRec).2.batches,
      b.status ≠ BatchStatus.failed) ∧
    (∀ rid bid, (rid, bid) ∈ s.inflight → ∀ delays, ∃ r b,
      List.lookup rid (completeBatch delays rid bid s).store = some r ∧
      b ∈ r.batches ∧ b.batch_id = bid ∧ b.status = BatchStatus.completed) := by
  obtain ⟨t, hg⟩ := reachable_good h
  refine ⟨fun i d => rfl, processSingleBatchOutcome_completed, hg.no_failed, ?_⟩
  intro rid bid hmem delays
  obtain ⟨r, b, hr, hb, hbid, hbst⟩ := hg.inflight_wf (rid, bid) hmem
  have hnd := hg.bids_nodup (rid, r) (lookup_mem hr)
  have hfind : r.batches.find? (fun x => x.batch_id == bid) = some b := by
    have h2 := find?_batch_eq hnd hb
    rw [hbid] at h2
    exact h2
  have hsc : (List.lookup rid s.store).bind
      (fun rr => rr.batches.find? fun x => x.batch_id == bid) = some b := by
    rw [hr]
    exact hfind
  unfold completeBatch
  rw [hsc]
  dsimp only
  rw [processSingleBatchOutcome_completed]
  refine ⟨setBatchStatus r bid BatchStatus.completed,
    { b with status := BatchStatus.completed }, ?_, ?_, hbid, rfl⟩
  · rw [lookup_updateBatch, if_pos rfl, hr]
    rfl
  · have h2 := @setBatchStatus_mem r bid BatchStatus.completed b hb
    rw [if_pos hbid] at h2
    exact h2

/-- C10 witness: the state after a submission at time 5000 whose only batch
is in flight as promise (0, 1). -/
theorem claim10_witness :
    (∀ i d, simulateApiCall i d = Except.ok (i, "processed")) ∧
    (∀ delays b, processSingleBatchOutcome delays b = BatchStatus.completed) ∧
    (∀ p ∈ (handleIngestRequest 5000 ⟨some [1], some "HIGH"⟩ initState).2.store,
      ∀ b ∈ (p : Nat × ReqRec).2.batches, b.status ≠ BatchStatus.failed) ∧
    (∀ rid bid,
      (rid, bid) ∈ (handleIngestRequest 5000 ⟨some [1], some "HIGH"⟩ initState).2.inflight →
      ∀ delays, ∃ r b,
      List.lookup rid (completeBatch delays rid bid
        (handleIngestRequest 5000 ⟨some [1], some "HIGH"⟩ initState).2).store = some r ∧
      b ∈ r.batches ∧ b.batch_id = bid ∧ b.status = BatchStatus.completed) :=
  claim10_theorem (handleIngestRequest 5000 ⟨some [1], some "HIGH"⟩ initState).2
    (ExecFrom.step (Nat.zero_le 5000)
      (Step.submit 5000 ⟨some [1], some "HIGH"⟩ initState) (ExecFrom.refl 5000 _))

end IngestApi
